import Mathlib

/-!
Verification development for the bar-sampling core of finance-ml
(src/finance_ml/data_structures/standard_bars.py).

The python code works on pandas dataframes; here a tick table is a list of
records, derived columns are record fields, and the group column returned by
the assignment pass is a list of "Option Nat" values, where "none" models
the NaN entries that the loop never sets (pandas groupby drops rows whose
key is NaN).  Numeric column values are rationals; timestamps are integer
business-day indices (resampling by business day groups rows by that index).
-/

namespace FinanceML

/-- One raw input row: the configurable datetime, price and volume columns. -/
structure Tick where
  date_time : ℤ
  price : ℚ
  volume : ℚ
deriving DecidableEq, Repr

/-- A row of the working copy "aux" after sample_bar has added the derived
columns ticks = 1 and dollar = price * volume. -/
structure AuxRow where
  date_time : ℤ
  price : ℚ
  volume : ℚ
  ticks : ℚ
  dollar : ℚ
deriving DecidableEq, Repr

/-- One output bar row, after the column renaming at the end of the
"_get_*_bar" helpers.  The field "open_" models the column named open. -/
structure Bar where
  date_time : ℤ
  open_ : ℚ
  high : ℚ
  low : ℚ
  close : ℚ
  ticks : ℚ
  volume : ℚ
  dollar : ℚ
deriving DecidableEq, Repr

/-- The threshold argument of sample_bar: either the string "auto" or a
user supplied number. -/
inductive Threshold where
  | auto : Threshold
  | fixed (v : ℚ) : Threshold
deriving DecidableEq, Repr

/-- POSSIBLE_BAR_TYPES from the source module. -/
def POSSIBLE_BAR_TYPES : List String := ["tick", "volume", "dollar"]

/-- Cumulative sum of a numeric column (pandas Series.cumsum). -/
def cumsum : List ℚ → List ℚ
  | [] => []
  | x :: xs => x :: (cumsum xs).map (fun y => x + y)

/-- Round-half-to-even on rationals, the rounding rule used by np.round. -/
def round_half_even (x : ℚ) : ℤ :=
  if x - Int.floor x < 1 / 2 then Int.floor x
  else if 1 / 2 < x - Int.floor x then Int.floor x + 1
  else if Int.floor x % 2 = 0 then Int.floor x else Int.floor x + 1

/-- np.round (x, d): round to multiples of 10 ^ (-d) with ties to even
(for d = -2 this is rounding to the nearest hundred). -/
def np_round (x : ℚ) (d : ℤ) : ℚ :=
  (round_half_even (x / (10 : ℚ) ^ (-d)) : ℚ) * (10 : ℚ) ^ (-d)

/-- Smallest business-day index appearing in a datetime column (0 on an
empty column; only used on nonempty input). -/
def dtMin : List ℤ → ℤ
  | [] => 0
  | [x] => x
  | x :: xs => min x (dtMin xs)

/-- Largest business-day index appearing in a datetime column. -/
def dtMax : List ℤ → ℤ
  | [] => 0
  | [x] => x
  | x :: xs => max x (dtMax xs)

/-- Number of business-day bins produced by resample, i.e. the bins for
every day between the first and the last day of the input, empty days
included. -/
def spanDays (rows : List AuxRow) : ℕ :=
  (dtMax (rows.map AuxRow.date_time) - dtMin (rows.map AuxRow.date_time)).toNat + 1

/-- df.set_index(date_time).resample("B").sum()[tgt_col]: the per business
day sums of the tgt column, one entry per day bin in the span of the data,
where a day with no rows yields an (empty) sum of 0. -/
def resample_B_sum (rows : List AuxRow) (tgt : AuxRow → ℚ) : List ℚ :=
  (List.range (spanDays rows)).map
    (fun (k : ℕ) =>
      ((rows.filter
        (fun r => decide (r.date_time = dtMin (rows.map AuxRow.date_time) + (k : ℤ)))).map
        tgt).sum)

/-- The variable mean_no_ticks of _get_auto_threshold: mean of the per
business day sums. -/
def mean_daily (rows : List AuxRow) (tgt : AuxRow → ℚ) : ℚ :=
  (resample_B_sum rows tgt).sum / ((resample_B_sum rows tgt).length : ℚ)

/-- _get_auto_threshold: daily average of the chosen column, scaled by
auto_ratio and rounded with np.round to the magnitude given by rounding. -/
def _get_auto_threshold (df : List AuxRow) (tgt : AuxRow → ℚ) (rounding : ℤ)
    (auto_ratio : ℚ) : ℚ :=
  np_round (mean_daily df tgt * auto_ratio) rounding

/-- The slice assignment tmp.iloc[a:(b+1), -1] = g on the group column. -/
def setRange (grp_col : List (Option ℕ)) (a b g : ℕ) : List (Option ℕ) :=
  grp_col.take a ++ List.replicate (min (b + 1) grp_col.length - a) (some g)
    ++ grp_col.drop (b + 1)

/-- The row loop of _assign_groups_threshold.  The state is the current row
index, the (mutated) cumulative column of tmp, the counters group and
ref_row, and the group column of tmp.  On a crossing the code subtracts the
value at the current row from the whole cumulative column and writes the
group id into rows ref_row..row. -/
def assignLoop (th : ℚ) (row : ℕ) (cum : List ℚ) (group ref_row : ℕ)
    (grp_col : List (Option ℕ)) : List (Option ℕ) :=
  if h : row < cum.length then
    if th ≤ cum.get ⟨row, h⟩ then
      assignLoop th (row + 1) (cum.map (fun x => x - cum.get ⟨row, h⟩)) (group + 1)
        (row + 1) (setRange grp_col ref_row row group)
    else
      assignLoop th (row + 1) cum group ref_row grp_col
  else grp_col
termination_by cum.length - row
decreasing_by
  · simp only [List.length_map]
    omega
  · omega

/-- _assign_groups_threshold: resolve the threshold (once, before the
loop), start from an all NaN group column and run the row loop.  The
cumulative column of df (named cum_col in the source) is passed as the
list cum. -/
def _assign_groups_threshold (df : List AuxRow) (threshold : Threshold)
    (tgt : AuxRow → ℚ) (cum : List ℚ) (rounding : ℤ) (auto_ratio : ℚ) :
    List (Option ℕ) :=
  let th : ℚ :=
    match threshold with
    | .auto => _get_auto_threshold df tgt rounding auto_ratio
    | .fixed v => v
  assignLoop th 0 cum 0 0 (List.replicate cum.length none)

/-- Max of a price column (np.max aggregation; only used on nonempty
groups, 0 is a junk default). -/
def colMax : List ℚ → ℚ
  | [] => 0
  | [x] => x
  | x :: xs => max x (colMax xs)

/-- Min of a price column (np.min aggregation). -/
def colMin : List ℚ → ℚ
  | [] => 0
  | [x] => x
  | x :: xs => min x (colMin xs)

/-- One aggregated row of df.groupby(groups).agg(...): date_time last,
price first/max/min/last, sums of ticks, volume and dollar. -/
def barOf (rows : List AuxRow) : Bar where
  date_time := (rows.map AuxRow.date_time).getLastD 0
  open_ := (rows.map AuxRow.price).headD 0
  high := colMax (rows.map AuxRow.price)
  low := colMin (rows.map AuxRow.price)
  close := (rows.map AuxRow.price).getLastD 0
  ticks := (rows.map AuxRow.ticks).sum
  volume := (rows.map AuxRow.volume).sum
  dollar := (rows.map AuxRow.dollar).sum

/-- The rows of df whose entry in the groups key column equals some g. -/
def selectRows (rows : List AuxRow) (groups : List (Option ℕ)) (g : ℕ) :
    List AuxRow :=
  ((rows.zip groups).filter (fun p => decide (p.2 = some g))).map Prod.fst

/-- The keys of df.groupby(groups): the distinct non NaN values of the key
column, in ascending order (rows with NaN key are dropped by pandas). -/
def groupKeys (groups : List (Option ℕ)) : List ℕ :=
  (groups.filterMap id).toFinset.sort (· ≤ ·)

/-- df.groupby(groups, as_index=False).agg(...): one aggregated bar per
key, in ascending key order. -/
def aggBars (rows : List AuxRow) (groups : List (Option ℕ)) : List Bar :=
  (groupKeys groups).map (fun g => barOf (selectRows rows groups g))

/-- _get_tick_bar: cum_ticks column, group assignment on it, group-by
aggregation. -/
def _get_tick_bar (df : List AuxRow) (threshold : Threshold) (rounding : ℤ)
    (auto_ratio : ℚ) : List Bar :=
  let cum_ticks := cumsum (df.map AuxRow.ticks)
  let groups := _assign_groups_threshold df threshold AuxRow.ticks cum_ticks rounding auto_ratio
  aggBars df groups

/-- _get_volume_bar. -/
def _get_volume_bar (df : List AuxRow) (threshold : Threshold) (rounding : ℤ)
    (auto_ratio : ℚ) : List Bar :=
  let cum_vol := cumsum (df.map AuxRow.volume)
  let groups := _assign_groups_threshold df threshold AuxRow.volume cum_vol rounding auto_ratio
  aggBars df groups

/-- _get_dollar_bar. -/
def _get_dollar_bar (df : List AuxRow) (threshold : Threshold) (rounding : ℤ)
    (auto_ratio : ℚ) : List Bar :=
  let cum_dol := cumsum (df.map AuxRow.dollar)
  let groups := _assign_groups_threshold df threshold AuxRow.dollar cum_dol rounding auto_ratio
  aggBars df groups

/-- aux["ticks"] = 1 and aux["dollar"] = price * volume: one row of the
working copy built by sample_bar. -/
def toAux (t : Tick) : AuxRow :=
  ⟨t.date_time, t.price, t.volume, 1, t.price * t.volume⟩

/-- sample_bar: the required columns always exist in this embedding (the
table type carries them), so of the two asserts only the bar type check can
fail; then build the working copy with the derived columns and dispatch on
bar_type exactly as the if/elif/else chain does. -/
def sample_bar (df : List Tick) (bar_type : String) (threshold : Threshold)
    (rounding : ℤ) (auto_ratio : ℚ) : Except String (List Bar) :=
  if bar_type ∈ POSSIBLE_BAR_TYPES then
    let aux := df.map toAux
    Except.ok
      (if bar_type = "tick" then _get_tick_bar aux threshold rounding auto_ratio
       else if bar_type = "volume" then _get_volume_bar aux threshold rounding auto_ratio
       else _get_dollar_bar aux threshold rounding auto_ratio)
  else Except.error "Expected bar_type to be one of tick, volume, dollar"

/-! Functional reference forms of the assignment loop, used to reason about
assignLoop.  grpAux walks the still unprocessed suffix of the cumulative
column carrying a scalar baseline (the value of the column at the last
crossing), the current group id and the number of pending rows (rows seen
since the last crossing); it emits the group entries for the pending rows
and the suffix. -/

/-- Baseline form of the row loop: pend pending entries followed by the
entries for the remaining rows, crossing when the rebased value reaches th. -/
def grpAux (th : ℚ) : List ℚ → ℚ → ℕ → ℕ → List (Option ℕ)
  | [], _, _, pend => List.replicate pend none
  | c :: rest, baseline, g, pend =>
    if th ≤ c - baseline then
      List.replicate (pend + 1) (some g) ++ grpAux th rest c (g + 1) 0
    else grpAux th rest baseline g (pend + 1)

/-- Sizes of the closed groups and the count of trailing unassigned rows. -/
def blockSizes (th : ℚ) : List ℚ → ℚ → ℕ → List ℕ × ℕ
  | [], _, pend => ([], pend)
  | c :: rest, baseline, pend =>
    if th ≤ c - baseline then
      ((pend + 1) :: (blockSizes th rest c 0).1, (blockSizes th rest c 0).2)
    else blockSizes th rest baseline (pend + 1)

/-- Group column described by closed block sizes starting at id g, followed
by t unassigned rows. -/
def flattenBlocks (g : ℕ) : List ℕ → ℕ → List (Option ℕ)
  | [], t => List.replicate t none
  | s :: bs, t => List.replicate s (some g) ++ flattenBlocks (g + 1) bs t

/-- Number of rows carrying key g in a group column. -/
def countK (g : ℕ) : List (Option ℕ) → ℕ
  | [] => 0
  | o :: G => (if o = some g then 1 else 0) + countK g G

/-- The list b+1, b+2, ..., b+n: the cumulative tick column of n rows
rebased at b. -/
def consec (b : ℚ) : ℕ → List ℚ
  | 0 => []
  | n + 1 => (b + 1) :: consec (b + 1) n

/-- Sum of the first k block sizes: the row index where block k starts. -/
def sumTake (bs : List ℕ) (k : ℕ) : ℕ :=
  (bs.take k).sum

/-- Which block a row index falls into. -/
def blockIdx : List ℕ → ℕ → ℕ
  | [], _ => 0
  | s :: bs, i => if i < s then 0 else blockIdx bs (i - s) + 1

/-- Group column of the specification pass described by block sizes: after
the closed blocks the trailing rows carry the current (unfinished) id. -/
def flattenTot (g : ℕ) : List ℕ → ℕ → List ℕ
  | [], t => List.replicate t g
  | s :: bs, t => List.replicate s g ++ flattenTot (g + 1) bs t

/-- Single forward pass of the specification (section 4.2): scalar baseline
rebasing, and after the pass the rows since the last crossing are assigned
the current (unfinished) group id.  This follows the words of the spec and
is compared against the source pass for the refinement claim. -/
def specPass (th : ℚ) : List ℚ → ℚ → ℕ → ℕ → List ℕ
  | [], _, group_id, pend => List.replicate pend group_id
  | c :: rest, baseline, group_id, pend =>
    if th ≤ c - baseline then
      List.replicate (pend + 1) group_id ++ specPass th rest c (group_id + 1) 0
    else specPass th rest baseline group_id (pend + 1)

/-- assign_groups of the specification, section 4.2. -/
def assign_groups_spec (th : ℚ) (cum : List ℚ) : List ℕ :=
  specPass th cum 0 0 0

/-! A small object model for the frame claim: a dataframe value is its base
columns plus the numeric columns added by the code.  Copies are fresh
values, in-place column writes replace the object a local name binds, and
the value returned for the caller is the final value of the object the
caller passed in.  Emissions collect the arguments of the print calls. -/

/-- A pandas dataframe object: base columns plus added numeric columns. -/
structure DFrame where
  base : List Tick
  extra : List (String × List ℚ)
deriving DecidableEq, Repr

/-- df.copy(deep=True): a fresh object with the same contents. -/
def DFrame.copy (d : DFrame) : DFrame := d

/-- df[name] = col: in-place write of a numeric column. -/
def DFrame.setcol (d : DFrame) (name : String) (col : List ℚ) : DFrame :=
  { d with extra := (name, col) :: d.extra }

/-- The working rows encoded by a frame whose ticks and dollar columns were
filled in by sample_bar. -/
def auxRowsOf (d : DFrame) : List AuxRow :=
  d.base.map toAux

/-- Effect shape of _assign_groups_threshold: the function deep-copies its
argument into tmp and mutates only tmp, so the argument object is returned
unchanged; in auto mode it prints the resolved threshold once, otherwise
it prints nothing. -/
def _assign_groups_threshold_effects (d : DFrame) (threshold : Threshold)
    (tgt : AuxRow → ℚ) (rounding : ℤ) (auto_ratio : ℚ) : DFrame × List ℚ :=
  (d,
    match threshold with
    | .auto => [_get_auto_threshold (auxRowsOf d) tgt rounding auto_ratio]
    | .fixed _ => [])

/-- Effect shape of _get_tick_bar: it writes the cum_ticks column into its
argument in place, then calls the assignment pass on it. -/
def _get_tick_bar_effects (d : DFrame) (threshold : Threshold) (rounding : ℤ)
    (auto_ratio : ℚ) : DFrame × List ℚ :=
  let d := d.setcol "cum_ticks" (cumsum ((auxRowsOf d).map AuxRow.ticks))
  let asg := _assign_groups_threshold_effects d threshold AuxRow.ticks rounding auto_ratio
  (asg.1, asg.2)

/-- Effect shape of _get_volume_bar. -/
def _get_volume_bar_effects (d : DFrame) (threshold : Threshold) (rounding : ℤ)
    (auto_ratio : ℚ) : DFrame × List ℚ :=
  let d := d.setcol "cum_vol" (cumsum ((auxRowsOf d).map AuxRow.volume))
  let asg := _assign_groups_threshold_effects d threshold AuxRow.volume rounding auto_ratio
  (asg.1, asg.2)

/-- Effect shape of _get_dollar_bar. -/
def _get_dollar_bar_effects (d : DFrame) (threshold : Threshold) (rounding : ℤ)
    (auto_ratio : ℚ) : DFrame × List ℚ :=
  let d := d.setcol "cum_dol" (cumsum ((auxRowsOf d).map AuxRow.dollar))
  let asg := _assign_groups_threshold_effects d threshold AuxRow.dollar rounding auto_ratio
  (asg.1, asg.2)

/-- Effect shape of sample_bar: after the asserts it deep-copies the caller
table into aux, adds the derived columns to aux, and hands aux to the bar
helper; every later mutation targets aux (or deeper copies of it), so the
first component, the final value of the object the caller passed, is the
original df.  The second component lists the printed values. -/
def sample_bar_effects (df : DFrame) (bar_type : String) (threshold : Threshold)
    (rounding : ℤ) (auto_ratio : ℚ) : DFrame × List ℚ :=
  if bar_type ∈ POSSIBLE_BAR_TYPES then
    let aux := df.copy
    let aux := aux.setcol "ticks" (List.replicate df.base.length 1)
    let aux := aux.setcol "dollar" (df.base.map (fun t => t.price * t.volume))
    let call :=
      if bar_type = "tick" then _get_tick_bar_effects aux threshold rounding auto_ratio
      else if bar_type = "volume" then _get_volume_bar_effects aux threshold rounding auto_ratio
      else _get_dollar_bar_effects aux threshold rounding auto_ratio
    (df, call.2)
  else (df, [])

/-! Equivalence of the mutating loop with the baseline pass. -/

/-- Subtracting a constant from the whole remaining column and from the
baseline leaves the pass unchanged. -/
theorem grpAux_map_sub (th a : ℚ) :
    ∀ (l : List ℚ) (b : ℚ) (g pend : ℕ),
    grpAux th (l.map (fun x => x - a)) (b - a) g pend = grpAux th l b g pend := by
  intro l
  induction l with
  | nil => intro b g pend; rfl
  | cons c rest ih =>
    intro b g pend
    simp only [List.map_cons, grpAux]
    have hc : c - a - (b - a) = c - b := by ring
    rw [hc]
    by_cases h : th ≤ c - b
    · simp only [if_pos h, ih c (g + 1) 0]
    · simp only [if_neg h, ih b g (pend + 1)]

/-- The mutating loop of the source, started at row with ref_row pointing
r rows back and everything from ref_row on still unassigned, agrees with
the baseline pass on the remaining suffix. -/
theorem assignLoop_eq_grpAux (th : ℚ) :
    ∀ (k row : ℕ) (cum : List ℚ) (g r : ℕ) (pre : List (Option ℕ)),
    cum.length - row = k → r ≤ row → row ≤ cum.length → pre.length = r →
    assignLoop th row cum g r (pre ++ List.replicate (cum.length - r) none) =
      pre ++ grpAux th (cum.drop row) 0 g (row - r) := by
  intro k
  induction k with
  | zero =>
    intro row cum g r pre hk hr hrow hpre
    have hrow' : ¬ row < cum.length := by omega
    rw [assignLoop, dif_neg hrow']
    rw [List.drop_eq_nil_of_le (by omega)]
    simp only [grpAux]
    have heq : cum.length - r = row - r := by omega
    rw [heq]
  | succ k ih =>
    intro row cum g r pre hk hr hrow hpre
    have hlt : row < cum.length := by omega
    rw [assignLoop]
    simp only [dif_pos hlt]
    have hdrop : cum.drop row = cum.get ⟨row, hlt⟩ :: cum.drop (row + 1) :=
      List.drop_eq_get_cons hlt
    set c := cum.get ⟨row, hlt⟩ with hc
    by_cases hcross : th ≤ c
    · simp only [if_pos hcross]
      -- the slice write turns the group column into
      -- pre ++ (row + 1 - r copies of g) ++ trailing unassigned entries
      have hlen : (pre ++ List.replicate (cum.length - r) none).length = cum.length := by
        simp only [List.length_append, List.length_replicate, hpre]
        omega
      have hset : setRange (pre ++ List.replicate (cum.length - r) none) r row g =
          (pre ++ List.replicate (row + 1 - r) (some g)) ++
            List.replicate (cum.length - (row + 1)) none := by
        unfold setRange
        rw [hlen, List.take_left' hpre]
        have hmin : min (row + 1) cum.length = row + 1 := by omega
        rw [hmin]
        have hdr : (pre ++ List.replicate (cum.length - r) none).drop (row + 1) =
            List.replicate (cum.length - (row + 1)) none := by
          have h1 : row + 1 = pre.length + (row + 1 - r) := by rw [hpre]; omega
          rw [h1, List.drop_append, List.drop_replicate]
          congr 1
          omega
        rw [hdr]
      rw [hset]
      have hpre2 : (pre ++ List.replicate (row + 1 - r) (some g)).length = row + 1 := by
        simp only [List.length_append, List.length_replicate, hpre]
        omega
      have hIH := ih (row + 1) (cum.map (fun x => x - c)) (g + 1) (row + 1)
        (pre ++ List.replicate (row + 1 - r) (some g))
        (by simp only [List.length_map]; omega) (le_refl _)
        (by simp only [List.length_map]; omega) hpre2
      simp only [List.length_map] at hIH
      have hmapdrop : (cum.map (fun x => x - c)).drop (row + 1) =
          (cum.drop (row + 1)).map (fun x => x - c) := (List.map_drop _ _ _).symm
      rw [hmapdrop] at hIH
      have hshift : grpAux th ((cum.drop (row + 1)).map (fun x => x - c)) 0 (g + 1) 0 =
          grpAux th (cum.drop (row + 1)) c (g + 1) 0 := by
        have := grpAux_map_sub th c (cum.drop (row + 1)) c (g + 1) 0
        simpa using this
      rw [Nat.sub_self] at hIH
      rw [hshift] at hIH
      rw [hIH, hdrop]
      simp only [grpAux, sub_zero, if_pos hcross]
      have hcount : row - r + 1 = row + 1 - r := by omega
      rw [hcount, List.append_assoc]
    · simp only [if_neg hcross]
      rw [ih (row + 1) cum g r pre (by omega) (by omega) (by omega) hpre]
      rw [hdrop]
      simp only [grpAux, sub_zero, if_neg hcross]
      have hcount : row - r + 1 = row + 1 - r := by omega
      rw [hcount]

/-- The assignment pass with a fixed threshold is the baseline pass. -/
theorem assign_fixed_eq (df : List AuxRow) (v : ℚ) (tgt : AuxRow → ℚ)
    (cum : List ℚ) (rounding : ℤ) (auto_ratio : ℚ) :
    _assign_groups_threshold df (.fixed v) tgt cum rounding auto_ratio =
      grpAux v cum 0 0 0 := by
  unfold _assign_groups_threshold
  have := assignLoop_eq_grpAux v (cum.length) 0 cum 0 0 [] (by omega) (le_refl 0)
    (Nat.zero_le _) rfl
  simpa using this

/-- The assignment pass in auto mode is the baseline pass at the threshold
resolved once by _get_auto_threshold. -/
theorem assign_auto_eq (df : List AuxRow) (tgt : AuxRow → ℚ)
    (cum : List ℚ) (rounding : ℤ) (auto_ratio : ℚ) :
    _assign_groups_threshold df .auto tgt cum rounding auto_ratio =
      grpAux (_get_auto_threshold df tgt rounding auto_ratio) cum 0 0 0 := by
  unfold _assign_groups_threshold
  have := assignLoop_eq_grpAux (_get_auto_threshold df tgt rounding auto_ratio)
    (cum.length) 0 cum 0 0 [] (by omega) (le_refl 0) (Nat.zero_le _) rfl
  simpa using this

/-! Structure of the group column produced by the pass. -/

/-- The baseline pass emits the closed blocks and then the unassigned
trailing rows. -/
theorem grpAux_eq_flattenBlocks (th : ℚ) :
    ∀ (l : List ℚ) (b : ℚ) (g pend : ℕ),
    grpAux th l b g pend =
      flattenBlocks g (blockSizes th l b pend).1 (blockSizes th l b pend).2 := by
  intro l
  induction l with
  | nil => intro b g pend; rfl
  | cons c rest ih =>
    intro b g pend
    simp only [grpAux, blockSizes]
    by_cases h : th ≤ c - b
    · simp only [if_pos h, flattenBlocks, ih c (g + 1) 0]
    · simp only [if_neg h, ih b g (pend + 1)]

/-- Every closed block is nonempty. -/
theorem blockSizes_pos (th : ℚ) :
    ∀ (l : List ℚ) (b : ℚ) (pend : ℕ) (s : ℕ),
    s ∈ (blockSizes th l b pend).1 → 0 < s := by
  intro l
  induction l with
  | nil => intro b pend s hs; simp [blockSizes] at hs
  | cons c rest ih =>
    intro b pend s hs
    simp only [blockSizes] at hs
    by_cases h : th ≤ c - b
    · simp only [if_pos h, List.mem_cons] at hs
      rcases hs with hs | hs
      · omega
      · exact ih c 0 s hs
    · simp only [if_neg h] at hs
      exact ih b (pend + 1) s hs

/-- The group column has one entry per pending and per remaining row. -/
theorem grpAux_length (th : ℚ) :
    ∀ (l : List ℚ) (b : ℚ) (g pend : ℕ),
    (grpAux th l b g pend).length = pend + l.length := by
  intro l
  induction l with
  | nil => intro b g pend; simp [grpAux]
  | cons c rest ih =>
    intro b g pend
    simp only [grpAux]
    by_cases h : th ≤ c - b
    · simp only [if_pos h, List.length_append, List.length_replicate, ih c (g + 1) 0,
        List.length_cons]
      omega
    · simp only [if_neg h, ih b g (pend + 1), List.length_cons]
      omega

/-- Which group ids occur in a block description with positive sizes. -/
theorem mem_flattenBlocks (j : ℕ) :
    ∀ (bs : List ℕ) (g t : ℕ), (∀ s ∈ bs, 0 < s) →
    (some j ∈ flattenBlocks g bs t ↔ g ≤ j ∧ j < g + bs.length) := by
  intro bs
  induction bs with
  | nil =>
    intro g t hpos
    simp only [flattenBlocks, List.length_nil]
    constructor
    · intro h
      rcases List.eq_of_mem_replicate h with h
      cases h
    · intro h
      omega
  | cons s bs ih =>
    intro g t hpos
    simp only [flattenBlocks, List.mem_append, List.length_cons]
    have hs : 0 < s := hpos s (List.mem_cons_self s bs)
    constructor
    · intro h
      rcases h with h | h
      · rcases List.eq_of_mem_replicate h with h
        have : j = g := Option.some.inj h
        omega
      · have := (ih (g + 1) t (fun x hx => hpos x (List.mem_cons_of_mem s hx))).mp h
        omega
    · intro h
      by_cases hj : j = g
      · left
        rw [hj]
        exact List.mem_replicate.mpr ⟨by omega, rfl⟩
      · right
        exact (ih (g + 1) t (fun x hx => hpos x (List.mem_cons_of_mem s hx))).mpr (by omega)

/-- The pandas group keys of a block shaped column starting at id 0 are
exactly 0, ..., k-1 in order. -/
theorem groupKeys_flattenBlocks (bs : List ℕ) (t : ℕ) (hpos : ∀ s ∈ bs, 0 < s) :
    groupKeys (flattenBlocks 0 bs t) = List.range bs.length := by
  unfold groupKeys
  have hset : ((flattenBlocks 0 bs t).filterMap id).toFinset = Finset.range bs.length := by
    ext a
    simp only [List.mem_toFinset, List.mem_filterMap, id_eq, Finset.mem_range]
    constructor
    · rintro ⟨o, ho, rfl⟩
      have := (mem_flattenBlocks a bs 0 t hpos).mp ho
      omega
    · intro ha
      exact ⟨some a, (mem_flattenBlocks a bs 0 t hpos).mpr ⟨Nat.zero_le a, by omega⟩, rfl⟩
  rw [hset, Finset.sort_range]

/-- countK distributes over append. -/
theorem countK_append (g : ℕ) :
    ∀ (l₁ l₂ : List (Option ℕ)), countK g (l₁ ++ l₂) = countK g l₁ + countK g l₂ := by
  intro l₁
  induction l₁ with
  | nil => intro l₂; simp [countK]
  | cons o l ih =>
    intro l₂
    simp only [List.cons_append, countK, List.append_eq]
    rw [ih l₂]
    omega

/-- countK on a constant column. -/
theorem countK_replicate (g : ℕ) (o : Option ℕ) (n : ℕ) :
    countK g (List.replicate n o) = if o = some g then n else 0 := by
  induction n with
  | zero => simp [countK]
  | succ n ih =>
    simp only [List.replicate_succ, countK, ih]
    by_cases h : o = some g
    · simp only [if_pos h]
      omega
    · simp only [if_neg h]
      try omega

/-- A key that does not occur has count zero. -/
theorem countK_eq_zero (g : ℕ) :
    ∀ (l : List (Option ℕ)), some g ∉ l → countK g l = 0 := by
  intro l
  induction l with
  | nil => intro h; rfl
  | cons o G ih =>
    intro h
    simp only [List.mem_cons, not_or] at h
    have h1 : ¬ o = some g := fun he => h.1 he.symm
    simp only [countK, if_neg h1, ih h.2]

/-- How often a group id occurs in a block shaped column. -/
theorem count_flattenBlocks (j : ℕ) :
    ∀ (bs : List ℕ) (g t : ℕ), (∀ s ∈ bs, 0 < s) → g ≤ j → j < g + bs.length →
    countK j (flattenBlocks g bs t) = bs.getD (j - g) 0 := by
  intro bs
  induction bs with
  | nil =>
    intro g t hpos hg hj
    exfalso
    simp only [List.length_nil] at hj
    omega
  | cons s bs ih =>
    intro g t hpos hg hj
    simp only [flattenBlocks, countK_append, countK_replicate]
    by_cases hjg : j = g
    · subst hjg
      simp only [if_pos rfl]
      have hnot : some j ∉ flattenBlocks (j + 1) bs t := by
        intro hmem
        have := (mem_flattenBlocks j bs (j + 1) t
          (fun x hx => hpos x (List.mem_cons_of_mem s hx))).mp hmem
        omega
      rw [countK_eq_zero j _ hnot]
      simp
    · have hne : (some g : Option ℕ) ≠ some j := by
        intro h
        exact hjg (Option.some.inj h).symm
      simp only [if_neg hne, Nat.zero_add]
      have hrec := ih (g + 1) t (fun x hx => hpos x (List.mem_cons_of_mem s hx))
        (by omega) (by simp only [List.length_cons] at hj; omega)
      rw [hrec]
      have hidx : j - g = (j - (g + 1)) + 1 := by omega
      rw [hidx]
      rfl

/-- The number of rows pandas places in the group of key g is the number
of occurrences of g in the key column. -/
theorem selectRows_length :
    ∀ (rows : List AuxRow) (G : List (Option ℕ)), rows.length = G.length →
    ∀ g, (selectRows rows G g).length = countK g G := by
  intro rows
  induction rows with
  | nil =>
    intro G hlen g
    have hG : G = [] := by
      cases G with
      | nil => rfl
      | cons a l => simp at hlen
    subst hG
    rfl
  | cons r rows ih =>
    intro G hlen g
    cases G with
    | nil => simp at hlen
    | cons o G' =>
      have hrec := ih G' (by simpa using hlen) g
      simp only [selectRows] at hrec
      by_cases ho : o = some g
      · simp [selectRows, List.filter_cons, ho, countK, hrec]
        try omega
      · simp [selectRows, List.filter_cons, ho, countK, hrec]
        try omega

/-- Selected rows come from the input table. -/
theorem selectRows_subset (rows : List AuxRow) (G : List (Option ℕ)) (g : ℕ) :
    ∀ r ∈ selectRows rows G g, r ∈ rows := by
  intro r hr
  simp only [selectRows, List.mem_map, List.mem_filter] at hr
  rcases hr with ⟨⟨a, o⟩, ⟨hz, _⟩, rfl⟩
  exact (List.of_mem_zip hz).1

/-- A column of ones sums to the row count. -/
theorem sum_ones (f : AuxRow → ℚ) :
    ∀ (l : List AuxRow), (∀ x ∈ l, f x = 1) → (l.map f).sum = l.length := by
  intro l
  induction l with
  | nil => intro h; simp
  | cons x xs ih =>
    intro h
    simp only [List.map_cons, List.sum_cons, List.length_cons, ih
      (fun y hy => h y (List.mem_cons_of_mem x hy)), h x (List.mem_cons_self x xs)]
    push_cast
    ring

/-! The cumulative tick column and its blocks. -/

/-- Length of consec. -/
theorem consec_length : ∀ (n : ℕ) (b : ℚ), (consec b n).length = n := by
  intro n
  induction n with
  | zero => intro b; rfl
  | succ n ih => intro b; simp only [consec, List.length_cons, ih]

/-- Shifting the base of consec by a constant. -/
theorem consec_map_add (a : ℚ) : ∀ (n : ℕ) (b : ℚ),
    (consec b n).map (fun y => a + y) = consec (a + b) n := by
  intro n
  induction n with
  | zero => intro b; rfl
  | succ n ih =>
    intro b
    simp only [consec, List.map_cons]
    rw [ih (b + 1)]
    have h1 : a + (b + 1) = a + b + 1 := by ring
    rw [h1]

/-- The cumulative sum of the all-ones tick column. -/
theorem cumsum_replicate_one : ∀ n : ℕ, cumsum (List.replicate n 1) = consec 0 n := by
  intro n
  induction n with
  | zero => rfl
  | succ n ih =>
    simp only [List.replicate_succ, cumsum, ih]
    rw [consec_map_add 1 n 0]
    simp only [consec]
    norm_num

/-- On the cumulative tick column every closed block has exactly thN rows:
with unit increments the rebased count reaches an integer threshold exactly
at its thN-th row. -/
theorem blockSizes_consec (thN : ℕ) (hth : 0 < thN) :
    ∀ (n p : ℕ) (b : ℚ), p < thN →
    blockSizes (thN : ℚ) (consec b n) (b - (p : ℚ)) p =
      (List.replicate ((n + p) / thN) thN, (n + p) % thN) := by
  intro n
  induction n with
  | zero =>
    intro p b hp
    simp only [consec, blockSizes, Nat.zero_add]
    rw [Nat.div_eq_of_lt hp, Nat.mod_eq_of_lt hp]
    rfl
  | succ n ih =>
    intro p b hp
    simp only [consec, blockSizes]
    have hreb : (b + 1) - (b - (p : ℚ)) = (p : ℚ) + 1 := by ring
    rw [hreb]
    have hiff : ((thN : ℚ) ≤ (p : ℚ) + 1) ↔ thN ≤ p + 1 := by
      exact_mod_cast Iff.rfl
    by_cases hcross : thN ≤ p + 1
    · have hpe : p + 1 = thN := by omega
      rw [if_pos (hiff.mpr hcross)]
      have hIH := ih 0 (b + 1) hth
      rw [show ((b : ℚ) + 1) - (((0 : ℕ)) : ℚ) = b + 1 by push_cast; ring] at hIH
      rw [hIH]
      have h1 : n + 1 + p = n + thN := by omega
      have h2 : n + 0 = n := by omega
      rw [h1, h2, Nat.add_div_right n hth, Nat.add_mod_right, List.replicate_succ, hpe]
    · rw [if_neg (fun hq => hcross (hiff.mp hq))]
      have hIH := ih (p + 1) (b + 1) (by omega)
      rw [show ((b : ℚ) + 1) - (((p + 1 : ℕ)) : ℚ) = b - (p : ℚ) by push_cast; ring] at hIH
      rw [hIH]
      have h1 : n + 1 + p = n + (p + 1) := by omega
      rw [h1]

/-- The working copy built by sample_bar has a tick column of ones. -/
theorem map_toAux_ticks (df : List Tick) :
    (df.map toAux).map AuxRow.ticks = List.replicate df.length 1 := by
  induction df with
  | nil => rfl
  | cons t ts ih =>
    simp only [List.map_cons, List.length_cons, List.replicate_succ, ih]
    rfl

/-- Every working row has ticks = 1. -/
theorem toAux_ticks_one (df : List Tick) : ∀ r ∈ df.map toAux, r.ticks = 1 := by
  intro r hr
  rcases List.mem_map.mp hr with ⟨t, _, rfl⟩
  rfl

/-- getD inside a replicate. -/
theorem replicate_getD (a : ℕ) : ∀ (k i : ℕ), i < k →
    (List.replicate k a).getD i 0 = a := by
  intro k
  induction k with
  | zero => intro i hi; omega
  | succ k ih =>
    intro i hi
    cases i with
    | zero => rfl
    | succ i =>
      simp only [List.replicate_succ, List.getD_cons_succ]
      exact ih i (by omega)

/-- Length of a block shaped column. -/
theorem flattenBlocks_length :
    ∀ (bs : List ℕ) (g t : ℕ), (flattenBlocks g bs t).length = bs.sum + t := by
  intro bs
  induction bs with
  | nil => intro g t; simp [flattenBlocks]
  | cons s bs ih =>
    intro g t
    simp only [flattenBlocks, List.length_append, List.length_replicate, ih (g + 1) t,
      List.sum_cons]
    omega

/-- Explicit shape of the tick bar pipeline at a fixed integer threshold:
the group column consists of n / thN full blocks of size thN followed by
n % thN unassigned rows, and one bar is emitted per full block. -/
theorem get_tick_bar_fixed (df : List Tick) (thN : ℕ) (hth : 0 < thN)
    (rounding : ℤ) (auto_ratio : ℚ) :
    _get_tick_bar (df.map toAux) (.fixed (thN : ℚ)) rounding auto_ratio =
      (List.range (df.length / thN)).map
        (fun g => barOf (selectRows (df.map toAux)
          (flattenBlocks 0 (List.replicate (df.length / thN) thN) (df.length % thN)) g)) := by
  have h1 : _get_tick_bar (df.map toAux) (.fixed (thN : ℚ)) rounding auto_ratio =
      aggBars (df.map toAux)
        (_assign_groups_threshold (df.map toAux) (.fixed (thN : ℚ)) AuxRow.ticks
          (cumsum ((df.map toAux).map AuxRow.ticks)) rounding auto_ratio) := rfl
  rw [h1, map_toAux_ticks, cumsum_replicate_one, assign_fixed_eq, grpAux_eq_flattenBlocks]
  have hBS := blockSizes_consec thN hth df.length 0 0 (by omega)
  rw [show (0 : ℚ) - (((0 : ℕ)) : ℚ) = 0 by push_cast; ring] at hBS
  rw [show df.length + 0 = df.length by omega] at hBS
  rw [hBS]
  unfold aggBars
  rw [groupKeys_flattenBlocks _ _
    (fun s hs => by rw [List.eq_of_mem_replicate hs]; exact hth)]
  rw [List.length_replicate]

/-- Claim C10: for tick bars with a fixed positive integer threshold every
emitted bar contains exactly thN rows, hence its tick count is exactly the
threshold; the rows after the final crossing are never emitted as a bar. -/
theorem tick_bars_ticks_eq_threshold (df : List Tick) (thN : ℕ) (hth : 0 < thN)
    (rounding : ℤ) (auto_ratio : ℚ) :
    ∃ bars, sample_bar df "tick" (.fixed (thN : ℚ)) rounding auto_ratio = Except.ok bars ∧
      bars.length = df.length / thN ∧ ∀ b ∈ bars, b.ticks = (thN : ℚ) := by
  have hmem : "tick" ∈ POSSIBLE_BAR_TYPES := by decide
  have hpipe : sample_bar df "tick" (.fixed (thN : ℚ)) rounding auto_ratio =
      Except.ok (_get_tick_bar (df.map toAux) (.fixed (thN : ℚ)) rounding auto_ratio) := by
    unfold sample_bar
    rw [if_pos hmem]
    rfl
  rw [hpipe]
  refine ⟨_, rfl, ?_, ?_⟩
  · rw [get_tick_bar_fixed df thN hth rounding auto_ratio]
    simp
  · intro b hb
    rw [get_tick_bar_fixed df thN hth rounding auto_ratio] at hb
    rcases List.mem_map.mp hb with ⟨g, hg, rfl⟩
    have hglt : g < df.length / thN := List.mem_range.mp hg
    set bs := List.replicate (df.length / thN) thN with hbs
    set G := flattenBlocks 0 bs (df.length % thN) with hG
    have hpos : ∀ s ∈ bs, 0 < s :=
      fun s hs => by rw [List.eq_of_mem_replicate hs]; exact hth
    have hlen : (df.map toAux).length = G.length := by
      rw [hG, flattenBlocks_length, hbs, List.sum_replicate, List.length_map]
      have hdm := Nat.div_add_mod df.length thN
      simp only [smul_eq_mul]
      rw [Nat.mul_comm] at hdm
      exact hdm.symm
    have hsel := selectRows_length (df.map toAux) G hlen g
    have hcnt := count_flattenBlocks g bs 0 (df.length % thN) hpos (Nat.zero_le g)
      (by rw [hbs, List.length_replicate]; omega)
    rw [Nat.sub_zero] at hcnt
    rw [← hG] at hcnt
    have hgetD : bs.getD g 0 = thN := by
      rw [hbs]
      exact replicate_getD thN (df.length / thN) g hglt
    have hticks : ∀ x ∈ selectRows (df.map toAux) G g, AuxRow.ticks x = 1 :=
      fun x hx => toAux_ticks_one df x (selectRows_subset (df.map toAux) G g x hx)
    show ((selectRows (df.map toAux) G g).map AuxRow.ticks).sum = (thN : ℚ)
    rw [sum_ones AuxRow.ticks _ hticks, hsel, hcnt, hgetD]

/-! Index level description of the group column. -/

/-- sumTake at 0. -/
theorem sumTake_zero (bs : List ℕ) : sumTake bs 0 = 0 := rfl

/-- sumTake of the empty block list. -/
theorem sumTake_nil (k : ℕ) : sumTake [] k = 0 := by simp [sumTake]

/-- sumTake on a cons. -/
theorem sumTake_cons_succ (s : ℕ) (bs : List ℕ) (k : ℕ) :
    sumTake (s :: bs) (k + 1) = s + sumTake bs k := by
  simp [sumTake]

/-- Partial sums of block sizes never exceed the total. -/
theorem sumTake_le_sum : ∀ (bs : List ℕ) (k : ℕ), sumTake bs k ≤ bs.sum := by
  intro bs
  induction bs with
  | nil => intro k; simp [sumTake]
  | cons s bs ih =>
    intro k
    cases k with
    | zero => simp [sumTake]
    | succ k =>
      rw [sumTake_cons_succ]
      simp only [List.sum_cons]
      have := ih k
      omega

/-- A row index inside the closed blocks falls into a well formed block. -/
theorem blockIdx_spec : ∀ (bs : List ℕ) (i : ℕ), i < bs.sum →
    blockIdx bs i < bs.length ∧ sumTake bs (blockIdx bs i) ≤ i ∧
      i < sumTake bs (blockIdx bs i + 1) := by
  intro bs
  induction bs with
  | nil =>
    intro i hi
    simp only [List.sum_nil] at hi
    omega
  | cons s bs ih =>
    intro i hi
    simp only [blockIdx]
    by_cases h : i < s
    · simp only [if_pos h]
      refine ⟨by simp, by simp [sumTake], ?_⟩
      rw [sumTake_cons_succ, sumTake_zero]
      omega
    · simp only [if_neg h]
      have hsum : i - s < bs.sum := by
        simp only [List.sum_cons] at hi
        omega
      obtain ⟨h1, h2, h3⟩ := ih (i - s) hsum
      refine ⟨by simp only [List.length_cons]; omega, ?_, ?_⟩
      · rw [sumTake_cons_succ]; omega
      · rw [sumTake_cons_succ]; omega

/-- Later rows never fall into earlier blocks. -/
theorem blockIdx_mono : ∀ (bs : List ℕ) (i j : ℕ), i ≤ j →
    blockIdx bs i ≤ blockIdx bs j := by
  intro bs
  induction bs with
  | nil => intro i j h; simp [blockIdx]
  | cons s bs ih =>
    intro i j h
    simp only [blockIdx]
    by_cases hj : j < s
    · have hi : i < s := by omega
      simp [if_pos hi, if_pos hj]
    · by_cases hi : i < s
      · simp only [if_pos hi, if_neg hj]
        omega
      · simp only [if_neg hi, if_neg hj]
        have := ih (i - s) (j - s) (by omega)
        omega

/-- Uniqueness: a row between the boundaries of block k is in block k. -/
theorem blockIdx_eq : ∀ (bs : List ℕ) (k i : ℕ), k < bs.length →
    sumTake bs k ≤ i → i < sumTake bs (k + 1) → blockIdx bs i = k ∧ i < bs.sum := by
  intro bs
  induction bs with
  | nil => intro k i hk; simp at hk
  | cons s bs ih =>
    intro k i hk h1 h2
    cases k with
    | zero =>
      have h2' : i < s := by
        rw [sumTake_cons_succ, sumTake_zero] at h2
        omega
      constructor
      · simp only [blockIdx, if_pos h2']
      · simp only [List.sum_cons]
        omega
    | succ k =>
      rw [sumTake_cons_succ] at h1 h2
      have hge : ¬ i < s := by omega
      simp only [blockIdx, if_neg hge]
      obtain ⟨ha, hb⟩ := ih k (i - s) (by simpa using hk) (by omega) (by omega)
      exact ⟨by omega, by simp only [List.sum_cons]; omega⟩

/-- Entry at index i of a block shaped column: the id of the block the
index falls into, none on the trailing rows, out of range past the end. -/
theorem getElem?_flattenBlocks : ∀ (bs : List ℕ) (g t i : ℕ),
    (flattenBlocks g bs t)[i]? =
      if i < bs.sum then some (some (g + blockIdx bs i))
      else if i < bs.sum + t then some none
      else none := by
  intro bs
  induction bs with
  | nil =>
    intro g t i
    simp only [flattenBlocks, List.sum_nil, List.getElem?_replicate]
    rw [if_neg (by omega : ¬ i < 0)]
    simp
  | cons s bs ih =>
    intro g t i
    simp only [flattenBlocks]
    by_cases h : i < s
    · rw [List.getElem?_append_left (by simp only [List.length_replicate]; omega)]
      rw [List.getElem?_replicate, if_pos h]
      simp only [blockIdx, if_pos h, List.sum_cons]
      rw [if_pos (by omega)]
      simp
    · rw [List.getElem?_append_right (by simp only [List.length_replicate]; omega)]
      simp only [List.length_replicate]
      rw [ih (g + 1) t (i - s)]
      simp only [blockIdx, if_neg h, List.sum_cons]
      by_cases h1 : i - s < bs.sum
      · rw [if_pos h1, if_pos (by omega)]
        have he : g + 1 + blockIdx bs (i - s) = g + (blockIdx bs (i - s) + 1) := by omega
        rw [he]
      · rw [if_neg h1, if_neg (by omega : ¬ i < s + bs.sum)]
        by_cases h2 : i - s < bs.sum + t
        · rw [if_pos h2, if_pos (by omega)]
        · rw [if_neg h2, if_neg (by omega)]

/-- Entry at index i of the specification column: as for the source but
the trailing rows carry the current id instead of none. -/
theorem getElem?_flattenTot : ∀ (bs : List ℕ) (g t i : ℕ),
    (flattenTot g bs t)[i]? =
      if i < bs.sum then some (g + blockIdx bs i)
      else if i < bs.sum + t then some (g + bs.length)
      else none := by
  intro bs
  induction bs with
  | nil =>
    intro g t i
    simp only [flattenTot, List.sum_nil, List.getElem?_replicate, List.length_nil]
    rw [if_neg (by omega : ¬ i < 0)]
    simp
  | cons s bs ih =>
    intro g t i
    simp only [flattenTot]
    by_cases h : i < s
    · rw [List.getElem?_append_left (by simp only [List.length_replicate]; omega)]
      rw [List.getElem?_replicate, if_pos h]
      simp only [blockIdx, if_pos h, List.sum_cons]
      rw [if_pos (by omega)]
      simp
    · rw [List.getElem?_append_right (by simp only [List.length_replicate]; omega)]
      simp only [List.length_replicate]
      rw [ih (g + 1) t (i - s)]
      simp only [blockIdx, if_neg h, List.sum_cons, List.length_cons]
      by_cases h1 : i - s < bs.sum
      · rw [if_pos h1, if_pos (by omega)]
        have he : g + 1 + blockIdx bs (i - s) = g + (blockIdx bs (i - s) + 1) := by omega
        rw [he]
      · rw [if_neg h1, if_neg (by omega : ¬ i < s + bs.sum)]
        by_cases h2 : i - s < bs.sum + t
        · rw [if_pos h2, if_pos (by omega)]
          have he : g + 1 + bs.length = g + (bs.length + 1) := by omega
          rw [he]
        · rw [if_neg h2, if_neg (by omega)]

/-- The specification pass also decomposes along the same block sizes. -/
theorem specPass_eq_flattenTot (th : ℚ) :
    ∀ (l : List ℚ) (b : ℚ) (g pend : ℕ),
    specPass th l b g pend =
      flattenTot g (blockSizes th l b pend).1 (blockSizes th l b pend).2 := by
  intro l
  induction l with
  | nil => intro b g pend; rfl
  | cons c rest ih =>
    intro b g pend
    simp only [specPass, blockSizes]
    by_cases h : th ≤ c - b
    · simp only [if_pos h, flattenTot, ih c (g + 1) 0]
    · simp only [if_neg h, ih b g (pend + 1)]

/-! Values of the cumulative column at block boundaries. -/

/-- getD on the left part of an append. -/
theorem getD_append_left_q (l₁ l₂ : List ℚ) (i : ℕ) (h : i < l₁.length) (d : ℚ) :
    (l₁ ++ l₂).getD i d = l₁.getD i d := by
  rw [List.getD_eq_getElem?_getD, List.getD_eq_getElem?_getD, List.getElem?_append_left h]

/-- getD past the left part of an append. -/
theorem getD_append_right_q (l₁ l₂ : List ℚ) (j : ℕ) (d : ℚ) :
    (l₁ ++ l₂).getD (l₁.length + j) d = l₂.getD j d := by
  rw [List.getD_eq_getElem?_getD, List.getD_eq_getElem?_getD,
    List.getElem?_append_right (by omega : l₁.length ≤ l₁.length + j)]
  have he : l₁.length + j - l₁.length = j := by omega
  rw [he]

/-- In-range getD values are members. -/
theorem getD_mem_q (l : List ℚ) (n : ℕ) (d : ℚ) (h : n < l.length) : l.getD n d ∈ l := by
  rw [List.getD_eq_getElem?_getD, List.getElem?_eq_getElem h]
  exact List.getElem_mem h

/-- One more block adds its size to the partial sum. -/
theorem sumTake_succ_get (bs : List ℕ) (k : ℕ) (h : k < bs.length) :
    sumTake bs (k + 1) = sumTake bs k + bs[k] := by
  unfold sumTake
  rw [← List.take_concat_get' bs k h, List.sum_append]
  simp

/-- Partial sums grow strictly across an existing block of positive size. -/
theorem sumTake_lt_succ (bs : List ℕ) (hpos : ∀ s ∈ bs, 0 < s) (k : ℕ)
    (h : k < bs.length) : sumTake bs k < sumTake bs (k + 1) := by
  rw [sumTake_succ_get bs k h]
  have := hpos bs[k] (List.getElem_mem h)
  omega

/-- The rebased cumulative value reaches the threshold exactly at the last
row of each closed block and stays below it before: statement generalized
over the pass state.  The rows already seen since the last crossing are
pend, their rebased values are below the threshold, and b is the cumulative
value at the last crossing. -/
theorem blockSizes_crossing (th : ℚ) :
    ∀ (l pend : List ℚ) (b : ℚ),
    (∀ x ∈ pend, x - b < th) →
    ∀ k, k < (blockSizes th l b pend.length).1.length →
    (th ≤ (pend ++ l).getD (sumTake (blockSizes th l b pend.length).1 (k + 1) - 1) 0 -
        (if k = 0 then b
         else (pend ++ l).getD (sumTake (blockSizes th l b pend.length).1 k - 1) 0)) ∧
    (∀ i, sumTake (blockSizes th l b pend.length).1 k ≤ i →
        i < sumTake (blockSizes th l b pend.length).1 (k + 1) - 1 →
        (pend ++ l).getD i 0 -
          (if k = 0 then b
           else (pend ++ l).getD (sumTake (blockSizes th l b pend.length).1 k - 1) 0) < th) := by
  intro l
  induction l with
  | nil =>
    intro pend b hpend k hk
    simp [blockSizes] at hk
  | cons c rest ih =>
    intro pend b hpend k hk
    by_cases hcross : th ≤ c - b
    · have hbs : blockSizes th (c :: rest) b pend.length =
          ((pend.length + 1) :: (blockSizes th rest c 0).1, (blockSizes th rest c 0).2) := by
        simp only [blockSizes]
        rw [if_pos hcross]
      rw [hbs] at hk ⊢
      have ihc := ih [] c (by intro x hx; simp at hx)
      simp only [List.length_nil, List.nil_append] at ihc
      have hgetc : (pend ++ c :: rest).getD pend.length 0 = c := by
        have := getD_append_right_q pend (c :: rest) 0 0
        simpa using this
      have hgetrest : ∀ j, (pend ++ c :: rest).getD (pend.length + 1 + j) 0 =
          rest.getD j 0 := by
        intro j
        rw [List.append_cons]
        have hlen : (pend ++ [c]).length = pend.length + 1 := by simp
        have := getD_append_right_q (pend ++ [c]) rest j 0
        rw [hlen] at this
        exact this
      cases k with
      | zero =>
        constructor
        · rw [sumTake_cons_succ, sumTake_zero]
          have hidx : pend.length + 1 + 0 - 1 = pend.length := by omega
          rw [hidx, if_pos rfl, hgetc]
          exact hcross
        · intro i hi0 hi1
          rw [sumTake_cons_succ, sumTake_zero] at hi1
          rw [sumTake_zero] at hi0
          have hilt : i < pend.length := by omega
          rw [if_pos rfl, getD_append_left_q pend (c :: rest) i hilt]
          exact hpend (pend.getD i 0) (getD_mem_q pend i 0 hilt)
      | succ k' =>
        have hk' : k' < (blockSizes th rest c 0).1.length := by
          simp only [List.length_cons] at hk
          omega
        have hpos' : ∀ s ∈ (blockSizes th rest c 0).1, 0 < s :=
          fun s hs => blockSizes_pos th rest c 0 s hs
        obtain ⟨ih1, ih2⟩ := ihc k' hk'
        have hS1pos : 0 < sumTake (blockSizes th rest c 0).1 (k' + 1) := by
          have := sumTake_lt_succ (blockSizes th rest c 0).1 hpos' k' hk'
          omega
        -- the base of block k'+1 agrees with the base used by ih
        have hbase : (pend ++ c :: rest).getD
              (sumTake ((pend.length + 1) :: (blockSizes th rest c 0).1) (k' + 1) - 1) 0 =
            (if k' = 0 then c
             else rest.getD (sumTake (blockSizes th rest c 0).1 k' - 1) 0) := by
          rw [sumTake_cons_succ]
          cases k'0 : k' with
          | zero =>
            rw [sumTake_zero]
            have hidx : pend.length + 1 + 0 - 1 = pend.length := by omega
            rw [hidx, hgetc]
            simp
          | succ j =>
            have hjlt : j < (blockSizes th rest c 0).1.length := by
              rw [k'0] at hk'
              omega
            have hSpos : 0 < sumTake (blockSizes th rest c 0).1 (j + 1) := by
              have := sumTake_lt_succ (blockSizes th rest c 0).1 hpos' j hjlt
              omega
            have hidx : pend.length + 1 + sumTake (blockSizes th rest c 0).1 (j + 1) - 1 =
                pend.length + 1 + (sumTake (blockSizes th rest c 0).1 (j + 1) - 1) := by
              omega
            rw [hidx, hgetrest]
            simp
        constructor
        · rw [sumTake_cons_succ]
          have hidx : pend.length + 1 + sumTake (blockSizes th rest c 0).1 (k' + 1) - 1 =
              pend.length + 1 + (sumTake (blockSizes th rest c 0).1 (k' + 1) - 1) := by
            omega
          rw [hidx, hgetrest, if_neg (by omega : ¬ k' + 1 = 0), hbase]
          exact ih1
        · intro i hi0 hi1
          rw [sumTake_cons_succ] at hi0
          rw [sumTake_cons_succ] at hi1
          have hj : i = pend.length + 1 + (i - (pend.length + 1)) := by omega
          rw [if_neg (by omega : ¬ k' + 1 = 0), hbase, hj, hgetrest]
          exact ih2 (i - (pend.length + 1)) (by omega) (by omega)
    · have hbs : blockSizes th (c :: rest) b pend.length =
          blockSizes th rest b (pend.length + 1) := by
        simp only [blockSizes]
        rw [if_neg hcross]
      rw [hbs] at hk ⊢
      have hpend' : ∀ x ∈ pend ++ [c], x - b < th := by
        intro x hx
        rcases List.mem_append.mp hx with hx | hx
        · exact hpend x hx
        · rcases List.mem_singleton.mp hx with rfl
          exact lt_of_not_le hcross
      have ihnc := ih (pend ++ [c]) b hpend' k
      simp only [List.length_append, List.length_cons, List.length_nil] at ihnc
      rw [← List.append_cons] at ihnc
      exact ihnc hk

/-- Partial sums of block sizes are monotone step by step. -/
theorem sumTake_le_succ : ∀ (bs : List ℕ) (k : ℕ), sumTake bs k ≤ sumTake bs (k + 1) := by
  intro bs
  induction bs with
  | nil => intro k; simp [sumTake]
  | cons s bs ih =>
    intro k
    cases k with
    | zero =>
      rw [sumTake_zero, sumTake_cons_succ]
      omega
    | succ k =>
      rw [sumTake_cons_succ, sumTake_cons_succ]
      have := ih k
      omega

/-- Partial sums of block sizes are monotone. -/
theorem sumTake_mono (bs : List ℕ) : ∀ (j k : ℕ), j ≤ k → sumTake bs j ≤ sumTake bs k := by
  intro j k
  induction k with
  | zero => intro h; have : j = 0 := by omega
            rw [this]
  | succ k ih =>
    intro h
    by_cases hj : j = k + 1
    · rw [hj]
    · have := ih (by omega)
      have := sumTake_le_succ bs k
      omega

/-- Every input row lands in a closed block or in the trailing count. -/
theorem blockSizes_total (th : ℚ) :
    ∀ (l : List ℚ) (b : ℚ) (pend : ℕ),
    (blockSizes th l b pend).1.sum + (blockSizes th l b pend).2 = pend + l.length := by
  intro l
  induction l with
  | nil => intro b pend; simp [blockSizes]
  | cons c rest ih =>
    intro b pend
    simp only [blockSizes, List.length_cons]
    by_cases h : th ≤ c - b
    · simp only [if_pos h, List.sum_cons]
      have := ih c 0
      omega
    · simp only [if_neg h]
      have := ih b (pend + 1)
      omega

/-- Length of the specification column. -/
theorem flattenTot_length :
    ∀ (bs : List ℕ) (g t : ℕ), (flattenTot g bs t).length = bs.sum + t := by
  intro bs
  induction bs with
  | nil => intro g t; simp [flattenTot]
  | cons s bs ih =>
    intro g t
    simp only [flattenTot, List.length_append, List.length_replicate, ih (g + 1) t,
      List.sum_cons]
    omega

/-! Claim theorems. -/

/-- Claim C3: for every input and fixed positive threshold, every group in
the produced assignment occupies the contiguous index range between its
block boundaries, the cumulative measure rebased at the start of the group
reaches the threshold exactly at the last row of the group, and stays
strictly below it at every earlier row of the group.  Here block k of
blockSizes v cum 0 0 is group k, its rows are the indices from
sumTake bs k up to but excluding sumTake bs (k+1), and the rebasing
baseline is 0 for the first group and the cumulative value just before the
group start otherwise.  Since the source leaves trailing rows unassigned,
every group of the output is closed, which subsumes the wording "every
group except possibly the last". -/
theorem group_threshold_crossing (df : List AuxRow) (v : ℚ) (tgt : AuxRow → ℚ)
    (cum : List ℚ) (rounding : ℤ) (auto_ratio : ℚ) (hv : 0 < v) (k : ℕ)
    (hk : k < (blockSizes v cum 0 0).1.length) :
    (∀ i, (_assign_groups_threshold df (.fixed v) tgt cum rounding auto_ratio)[i]? =
        some (some k) ↔
      (sumTake (blockSizes v cum 0 0).1 k ≤ i ∧
        i < sumTake (blockSizes v cum 0 0).1 (k + 1))) ∧
    v ≤ cum.getD (sumTake (blockSizes v cum 0 0).1 (k + 1) - 1) 0 -
      (if k = 0 then 0 else cum.getD (sumTake (blockSizes v cum 0 0).1 k - 1) 0) ∧
    (∀ i, sumTake (blockSizes v cum 0 0).1 k ≤ i →
      i < sumTake (blockSizes v cum 0 0).1 (k + 1) - 1 →
      cum.getD i 0 -
        (if k = 0 then 0 else cum.getD (sumTake (blockSizes v cum 0 0).1 k - 1) 0) < v) := by
  have hG : _assign_groups_threshold df (.fixed v) tgt cum rounding auto_ratio =
      flattenBlocks 0 (blockSizes v cum 0 0).1 (blockSizes v cum 0 0).2 := by
    rw [assign_fixed_eq, grpAux_eq_flattenBlocks]
  have hcr := blockSizes_crossing v cum [] 0 (by intro x hx; simp at hx) k
  simp only [List.length_nil, List.nil_append] at hcr
  obtain ⟨h1, h2⟩ := hcr hk
  refine ⟨?_, h1, h2⟩
  intro i
  rw [hG, getElem?_flattenBlocks]
  constructor
  · intro hi
    by_cases hlt : i < (blockSizes v cum 0 0).1.sum
    · rw [if_pos hlt] at hi
      have hbk : blockIdx (blockSizes v cum 0 0).1 i = k := by
        have := Option.some.inj (Option.some.inj hi)
        omega
      obtain ⟨hb1, hb2, hb3⟩ := blockIdx_spec (blockSizes v cum 0 0).1 i hlt
      rw [hbk] at hb2 hb3
      exact ⟨hb2, hb3⟩
    · rw [if_neg hlt] at hi
      by_cases h2t : i < (blockSizes v cum 0 0).1.sum + (blockSizes v cum 0 0).2
      · rw [if_pos h2t] at hi
        simp at hi
      · rw [if_neg h2t] at hi
        cases hi
  · rintro ⟨hi1, hi2⟩
    obtain ⟨hbeq, hlt⟩ := blockIdx_eq (blockSizes v cum 0 0).1 k i hk hi1 hi2
    rw [if_pos hlt, hbeq]
    simp

/-- Witness for C3 at the five-row tick example with threshold 2: row 1 is
in group 0, whose rebased count reaches the threshold at row 1. -/
theorem group_threshold_crossing_witness :
    (_assign_groups_threshold
      [⟨0, 10, 1, 1, 10⟩, ⟨1, 11, 1, 1, 11⟩, ⟨2, 9, 1, 1, 9⟩, ⟨3, 12, 1, 1, 12⟩,
        ⟨4, 10, 1, 1, 10⟩] (.fixed 2) AuxRow.ticks
      (cumsum (([⟨0, 10, 1, 1, 10⟩, ⟨1, 11, 1, 1, 11⟩, ⟨2, 9, 1, 1, 9⟩, ⟨3, 12, 1, 1, 12⟩,
        ⟨4, 10, 1, 1, 10⟩] : List AuxRow).map AuxRow.ticks)) (-2) (1 / 50))[1]? =
      some (some 0) :=
  ((group_threshold_crossing
    [⟨0, 10, 1, 1, 10⟩, ⟨1, 11, 1, 1, 11⟩, ⟨2, 9, 1, 1, 9⟩, ⟨3, 12, 1, 1, 12⟩,
      ⟨4, 10, 1, 1, 10⟩] 2 AuxRow.ticks
    (cumsum (([⟨0, 10, 1, 1, 10⟩, ⟨1, 11, 1, 1, 11⟩, ⟨2, 9, 1, 1, 9⟩, ⟨3, 12, 1, 1, 12⟩,
      ⟨4, 10, 1, 1, 10⟩] : List AuxRow).map AuxRow.ticks)) (-2) (1 / 50)
    (by norm_num) 0 (by norm_num [blockSizes, cumsum])).1 1).mpr
    (by norm_num [blockSizes, cumsum, sumTake])

/-- Counterexample to claim C4 as stated: for the one-row input with
threshold 2 the pass assigns no integer group id to row 0 (its entry is
NaN), so the group assignment is not a sequence of integers starting at 0
covering every row. -/
theorem partition_claim_counterexample :
    ¬ ∃ g : ℕ, (_assign_groups_threshold [⟨0, 10, 1, 1, 10⟩] (.fixed 2) AuxRow.ticks
      (cumsum [(1 : ℚ)]) (-2) (1 / 50))[0]? = some (some g) := by
  rintro ⟨g, hg⟩
  rw [assign_fixed_eq] at hg
  have he : grpAux 2 (cumsum [(1 : ℚ)]) 0 0 0 = [none] := by
    norm_num [grpAux, cumsum]
  rw [he] at hg
  simp at hg

/-- Claim C4, amended: the group column has one entry per input row, and on
the prefix of assigned rows the ids are non-decreasing, assigned rows
precede all unassigned rows, and the set of ids below any assigned id is
covered with no gaps (in particular id 0 occurs); trailing rows after the
final crossing carry no id at all. -/
theorem partition_prefix_properties (df : List AuxRow) (v : ℚ) (tgt : AuxRow → ℚ)
    (cum : List ℚ) (rounding : ℤ) (auto_ratio : ℚ) :
    (_assign_groups_threshold df (.fixed v) tgt cum rounding auto_ratio).length = cum.length ∧
    (∀ i j gi gj : ℕ, i ≤ j →
      (_assign_groups_threshold df (.fixed v) tgt cum rounding auto_ratio)[i]? =
        some (some gi) →
      (_assign_groups_threshold df (.fixed v) tgt cum rounding auto_ratio)[j]? =
        some (some gj) → gi ≤ gj) ∧
    (∀ i j gj : ℕ, i ≤ j →
      (_assign_groups_threshold df (.fixed v) tgt cum rounding auto_ratio)[j]? =
        some (some gj) →
      ∃ gi : ℕ, (_assign_groups_threshold df (.fixed v) tgt cum rounding auto_ratio)[i]? =
        some (some gi)) ∧
    (∀ j gj : ℕ, (_assign_groups_threshold df (.fixed v) tgt cum rounding auto_ratio)[j]? =
        some (some gj) →
      ∀ gp : ℕ, gp ≤ gj → ∃ i : ℕ, i ≤ j ∧
        (_assign_groups_threshold df (.fixed v) tgt cum rounding auto_ratio)[i]? =
          some (some gp)) := by
  have hG : _assign_groups_threshold df (.fixed v) tgt cum rounding auto_ratio =
      flattenBlocks 0 (blockSizes v cum 0 0).1 (blockSizes v cum 0 0).2 := by
    rw [assign_fixed_eq, grpAux_eq_flattenBlocks]
  have hpos : ∀ s ∈ (blockSizes v cum 0 0).1, 0 < s :=
    fun s hs => blockSizes_pos v cum 0 0 s hs
  have hof : ∀ i gi,
      (_assign_groups_threshold df (.fixed v) tgt cum rounding auto_ratio)[i]? =
        some (some gi) →
      gi = blockIdx (blockSizes v cum 0 0).1 i ∧ i < (blockSizes v cum 0 0).1.sum := by
    intro i gi h
    rw [hG, getElem?_flattenBlocks] at h
    by_cases h1 : i < (blockSizes v cum 0 0).1.sum
    · rw [if_pos h1] at h
      have := Option.some.inj (Option.some.inj h)
      omega
    · rw [if_neg h1] at h
      by_cases h2 : i < (blockSizes v cum 0 0).1.sum + (blockSizes v cum 0 0).2
      · rw [if_pos h2] at h
        simp at h
      · rw [if_neg h2] at h
        cases h
  refine ⟨?_, ?_, ?_, ?_⟩
  · rw [hG, flattenBlocks_length]
    have := blockSizes_total v cum 0 0
    omega
  · intro i j gi gj hij hgi hgj
    obtain ⟨hi1, hi2⟩ := hof i gi hgi
    obtain ⟨hj1, hj2⟩ := hof j gj hgj
    rw [hi1, hj1]
    exact blockIdx_mono (blockSizes v cum 0 0).1 i j hij
  · intro i j gj hij hgj
    obtain ⟨hj1, hj2⟩ := hof j gj hgj
    refine ⟨blockIdx (blockSizes v cum 0 0).1 i, ?_⟩
    rw [hG, getElem?_flattenBlocks, if_pos (by omega)]
    simp
  · intro j gj hgj gp hgp
    obtain ⟨hj1, hj2⟩ := hof j gj hgj
    obtain ⟨hjl, hjs1, hjs2⟩ := blockIdx_spec (blockSizes v cum 0 0).1 j hj2
    refine ⟨sumTake (blockSizes v cum 0 0).1 gp, ?_, ?_⟩
    · have hmono := sumTake_mono (blockSizes v cum 0 0).1 gp
        (blockIdx (blockSizes v cum 0 0).1 j) (by omega)
      omega
    · obtain ⟨hbeq, hlt⟩ := blockIdx_eq (blockSizes v cum 0 0).1 gp
        (sumTake (blockSizes v cum 0 0).1 gp) (by omega) (le_refl _)
        (sumTake_lt_succ (blockSizes v cum 0 0).1 hpos gp (by omega))
      rw [hG, getElem?_flattenBlocks, if_pos hlt, hbeq]
      simp

/-- Witness for the amended C4 at the five-row tick example: row 3 carries
id 1, and id 0 indeed occurs at some earlier row. -/
theorem partition_prefix_properties_witness :
    ∃ i, i ≤ 3 ∧ (_assign_groups_threshold
      [⟨0, 10, 1, 1, 10⟩, ⟨1, 11, 1, 1, 11⟩, ⟨2, 9, 1, 1, 9⟩, ⟨3, 12, 1, 1, 12⟩,
        ⟨4, 10, 1, 1, 10⟩] (.fixed 2) AuxRow.ticks
      (cumsum (([⟨0, 10, 1, 1, 10⟩, ⟨1, 11, 1, 1, 11⟩, ⟨2, 9, 1, 1, 9⟩, ⟨3, 12, 1, 1, 12⟩,
        ⟨4, 10, 1, 1, 10⟩] : List AuxRow).map AuxRow.ticks)) (-2) (1 / 50))[i]? =
      some (some 0) :=
  (partition_prefix_properties
    [⟨0, 10, 1, 1, 10⟩, ⟨1, 11, 1, 1, 11⟩, ⟨2, 9, 1, 1, 9⟩, ⟨3, 12, 1, 1, 12⟩,
      ⟨4, 10, 1, 1, 10⟩] 2 AuxRow.ticks
    (cumsum (([⟨0, 10, 1, 1, 10⟩, ⟨1, 11, 1, 1, 11⟩, ⟨2, 9, 1, 1, 9⟩, ⟨3, 12, 1, 1, 12⟩,
      ⟨4, 10, 1, 1, 10⟩] : List AuxRow).map AuxRow.ticks)) (-2) (1 / 50)).2.2.2 3 1
    (by rw [assign_fixed_eq]; norm_num [grpAux, cumsum, List.replicate]) 0 (by omega)

/-- Counterexample to claim C8 as stated: at the one-row input with
threshold 2 the source pass leaves the row unassigned while the
specification pass of section 4.2 assigns it the current group id 0, so
the two passes do not produce the same group assignment. -/
theorem refinement_counterexample :
    ¬ (_assign_groups_threshold [⟨0, 10, 1, 1, 10⟩] (.fixed 2) AuxRow.ticks [(1 : ℚ)]
        (-2) (1 / 50) = (assign_groups_spec 2 [(1 : ℚ)]).map some) := by
  rw [assign_fixed_eq]
  norm_num [grpAux, assign_groups_spec, specPass, List.replicate]
  exact fun h => Option.noConfusion h

/-- Claim C8, amended: the source pass with repeated full-column
subtraction and the single-pass scalar-baseline rewrite of section 4.2
produce group columns of the same length that agree on every row the
source assigns, i.e. on all rows up to and including the final crossing;
they differ only on the trailing rows, which the source leaves unassigned
and the specification assigns the current group id. -/
theorem refinement_on_closed_rows (df : List AuxRow) (v : ℚ) (tgt : AuxRow → ℚ)
    (cum : List ℚ) (rounding : ℤ) (auto_ratio : ℚ) :
    (_assign_groups_threshold df (.fixed v) tgt cum rounding auto_ratio).length =
      (assign_groups_spec v cum).length ∧
    (∀ i g : ℕ, (_assign_groups_threshold df (.fixed v) tgt cum rounding auto_ratio)[i]? =
        some (some g) → (assign_groups_spec v cum)[i]? = some g) := by
  have hG : _assign_groups_threshold df (.fixed v) tgt cum rounding auto_ratio =
      flattenBlocks 0 (blockSizes v cum 0 0).1 (blockSizes v cum 0 0).2 := by
    rw [assign_fixed_eq, grpAux_eq_flattenBlocks]
  have hS : assign_groups_spec v cum =
      flattenTot 0 (blockSizes v cum 0 0).1 (blockSizes v cum 0 0).2 := by
    unfold assign_groups_spec
    rw [specPass_eq_flattenTot]
  constructor
  · rw [hG, hS, flattenBlocks_length, flattenTot_length]
  · intro i g hg
    rw [hG, getElem?_flattenBlocks] at hg
    rw [hS, getElem?_flattenTot]
    by_cases h1 : i < (blockSizes v cum 0 0).1.sum
    · rw [if_pos h1] at hg
      rw [if_pos h1]
      exact congrArg some (Option.some.inj (Option.some.inj hg))
    · rw [if_neg h1] at hg
      by_cases h2 : i < (blockSizes v cum 0 0).1.sum + (blockSizes v cum 0 0).2
      · rw [if_pos h2] at hg
        simp at hg
      · rw [if_neg h2] at hg
        cases hg

/-- Witness for the amended C8 at the five-row tick example: the source
assigns id 0 to row 1 and the specification pass agrees there. -/
theorem refinement_on_closed_rows_witness :
    (assign_groups_spec 2 (cumsum (([⟨0, 10, 1, 1, 10⟩, ⟨1, 11, 1, 1, 11⟩, ⟨2, 9, 1, 1, 9⟩,
      ⟨3, 12, 1, 1, 12⟩, ⟨4, 10, 1, 1, 10⟩] : List AuxRow).map AuxRow.ticks)))[1]? =
      some 0 :=
  (refinement_on_closed_rows
    [⟨0, 10, 1, 1, 10⟩, ⟨1, 11, 1, 1, 11⟩, ⟨2, 9, 1, 1, 9⟩, ⟨3, 12, 1, 1, 12⟩,
      ⟨4, 10, 1, 1, 10⟩] 2 AuxRow.ticks
    (cumsum (([⟨0, 10, 1, 1, 10⟩, ⟨1, 11, 1, 1, 11⟩, ⟨2, 9, 1, 1, 9⟩, ⟨3, 12, 1, 1, 12⟩,
      ⟨4, 10, 1, 1, 10⟩] : List AuxRow).map AuxRow.ticks)) (-2) (1 / 50)).2 1 0
    (by rw [assign_fixed_eq]; norm_num [grpAux, cumsum, List.replicate])

/-- Counterexample to claim C1 as stated: for the one-row input with tick
threshold 2 the single row never crosses the threshold; the claim demands
that it keep the last group id and be emitted as exactly one additional
partial trailing bar, but the sampler returns zero bars. -/
theorem trailing_bar_counterexample :
    sample_bar [⟨0, 10, 1⟩] "tick" (.fixed 2) (-2) (1 / 50) = Except.ok [] ∧
      ([] : List Bar).length ≠ 1 := by
  constructor
  · have h1 : sample_bar [⟨0, 10, 1⟩] "tick" (.fixed 2) (-2) (1 / 50) =
        Except.ok (aggBars ([⟨0, 10, 1⟩].map toAux)
          (_assign_groups_threshold ([⟨0, 10, 1⟩].map toAux) (.fixed 2) AuxRow.ticks
            (cumsum (([⟨0, 10, 1⟩].map toAux).map AuxRow.ticks)) (-2) (1 / 50))) := by
      unfold sample_bar _get_tick_bar
      rw [if_pos (by decide : ("tick" : String) ∈ POSSIBLE_BAR_TYPES)]
      rfl
    rw [h1, assign_fixed_eq]
    norm_num [toAux, aggBars, groupKeys, grpAux, cumsum, Finset.sort_empty]
  · decide

/-- Claim C1, amended: for every input and every fixed threshold, the rows
after the final crossing are left unassigned (NaN) and are dropped by the
group-by, so the output contains exactly one bar per threshold crossing
and no trailing partial bar. -/
theorem trailing_rows_dropped (df : List AuxRow) (v : ℚ) (tgt : AuxRow → ℚ)
    (cum : List ℚ) (rounding : ℤ) (auto_ratio : ℚ) :
    _assign_groups_threshold df (.fixed v) tgt cum rounding auto_ratio =
      flattenBlocks 0 (blockSizes v cum 0 0).1 (blockSizes v cum 0 0).2 ∧
    (∀ i, (blockSizes v cum 0 0).1.sum ≤ i →
      i < (blockSizes v cum 0 0).1.sum + (blockSizes v cum 0 0).2 →
      (_assign_groups_threshold df (.fixed v) tgt cum rounding auto_ratio)[i]? =
        some none) ∧
    (aggBars df (_assign_groups_threshold df (.fixed v) tgt cum rounding auto_ratio)).length =
      (blockSizes v cum 0 0).1.length := by
  have hG : _assign_groups_threshold df (.fixed v) tgt cum rounding auto_ratio =
      flattenBlocks 0 (blockSizes v cum 0 0).1 (blockSizes v cum 0 0).2 := by
    rw [assign_fixed_eq, grpAux_eq_flattenBlocks]
  have hpos : ∀ s ∈ (blockSizes v cum 0 0).1, 0 < s :=
    fun s hs => blockSizes_pos v cum 0 0 s hs
  refine ⟨hG, ?_, ?_⟩
  · intro i h1 h2
    rw [hG, getElem?_flattenBlocks, if_neg (by omega), if_pos (by omega)]
  · rw [hG]
    unfold aggBars
    rw [groupKeys_flattenBlocks _ _ hpos]
    simp

/-- Witness for the amended C1 at the one-row input with threshold 2: the
single trailing row is unassigned. -/
theorem trailing_rows_dropped_witness :
    (_assign_groups_threshold [⟨0, 10, 1, 1, 10⟩] (.fixed 2) AuxRow.ticks
      (cumsum [(1 : ℚ)]) (-2) (1 / 50))[0]? = some none :=
  (trailing_rows_dropped [⟨0, 10, 1, 1, 10⟩] 2 AuxRow.ticks (cumsum [(1 : ℚ)])
    (-2) (1 / 50)).2.1 0 (by norm_num [blockSizes, cumsum])
    (by norm_num [blockSizes, cumsum])

/-- With a non-positive threshold every row crosses immediately: all blocks
have size one and nothing trails. -/
theorem blockSizes_nonpos (v : ℚ) (hv : v ≤ 0) :
    ∀ (n : ℕ) (b : ℚ), blockSizes v (consec b n) b 0 = (List.replicate n 1, 0) := by
  intro n
  induction n with
  | zero => intro b; rfl
  | succ n ih =>
    intro b
    simp only [consec, blockSizes]
    have h1 : (b + 1) - b = 1 := by ring
    rw [h1, if_pos (by linarith : v ≤ (1 : ℚ)), ih (b + 1)]
    rfl

/-- Counterexample to claim C5 as stated: a zero threshold is not rejected
with InvalidThreshold (the sampler happily returns one bar), and an empty
input is not rejected with EmptyInput (the sampler returns an empty bar
table). -/
theorem rejection_counterexample :
    sample_bar [⟨0, 10, 1⟩] "tick" (.fixed 0) (-2) (1 / 50) =
      Except.ok [⟨0, 10, 10, 10, 10, 1, 1, 10⟩] ∧
    sample_bar [] "tick" (.fixed 2) (-2) (1 / 50) = Except.ok [] := by
  constructor
  · have h1 : sample_bar [⟨0, 10, 1⟩] "tick" (.fixed 0) (-2) (1 / 50) =
        Except.ok (aggBars ([⟨0, 10, 1⟩].map toAux)
          (_assign_groups_threshold ([⟨0, 10, 1⟩].map toAux) (.fixed 0) AuxRow.ticks
            (cumsum (([⟨0, 10, 1⟩].map toAux).map AuxRow.ticks)) (-2) (1 / 50))) := by
      unfold sample_bar _get_tick_bar
      rw [if_pos (by decide : ("tick" : String) ∈ POSSIBLE_BAR_TYPES)]
      rfl
    rw [h1, assign_fixed_eq]
    have hgr : grpAux 0 (cumsum (([⟨0, 10, 1⟩].map toAux).map AuxRow.ticks)) 0 0 0 =
        [some 0] := by
      norm_num [grpAux, cumsum, toAux, List.replicate]
    rw [hgr]
    have hkeys : groupKeys [some 0] = [0] := by
      unfold groupKeys
      rw [show (([some 0] : List (Option ℕ)).filterMap id) = [0] by rfl]
      rw [show ([0] : List ℕ).toFinset = {0} by rfl]
      exact Finset.sort_singleton (· ≤ ·) 0
    unfold aggBars
    rw [hkeys]
    norm_num [selectRows, barOf, toAux, colMax, colMin]
  · have h1 : sample_bar [] "tick" (.fixed 2) (-2) (1 / 50) =
        Except.ok (aggBars (([] : List Tick).map toAux)
          (_assign_groups_threshold (([] : List Tick).map toAux) (.fixed 2) AuxRow.ticks
            (cumsum ((([] : List Tick).map toAux).map AuxRow.ticks)) (-2) (1 / 50))) := by
      unfold sample_bar _get_tick_bar
      rw [if_pos (by decide : ("tick" : String) ∈ POSSIBLE_BAR_TYPES)]
      rfl
    rw [h1, assign_fixed_eq]
    have hgr : grpAux 2 (cumsum ((([] : List Tick).map toAux).map AuxRow.ticks)) 0 0 0 =
        ([] : List (Option ℕ)) := rfl
    rw [hgr]
    have hkeys : groupKeys [] = [] := by
      unfold groupKeys
      rw [show (([] : List (Option ℕ)).filterMap id) = [] by rfl]
      rw [show ([] : List ℕ).toFinset = ∅ by rfl]
      exact Finset.sort_empty _
    unfold aggBars
    rw [hkeys]
    rfl

/-- Claim C5, amended: the code validates only column presence and bar
type; neither a non-positive threshold nor an empty table is rejected.
Sampling an empty table returns an empty bar table for every valid bar
type, and a tick sampling with threshold at most zero degenerates into one
bar per input row instead of failing. -/
theorem no_validation_degenerate_behavior (df : List Tick) (v : ℚ) (hv : v ≤ 0)
    (bt : String) (hbt : bt ∈ POSSIBLE_BAR_TYPES) (rounding : ℤ) (auto_ratio : ℚ) :
    sample_bar [] bt (.fixed v) rounding auto_ratio = Except.ok [] ∧
    ∃ bars, sample_bar df "tick" (.fixed v) rounding auto_ratio = Except.ok bars ∧
      bars.length = df.length := by
  constructor
  · have hbt' : bt = "tick" ∨ bt = "volume" ∨ bt = "dollar" := by
      simpa [POSSIBLE_BAR_TYPES] using hbt
    have hkeys : groupKeys [] = [] := by
      unfold groupKeys
      rw [show (([] : List (Option ℕ)).filterMap id) = [] by rfl]
      rw [show ([] : List ℕ).toFinset = ∅ by rfl]
      exact Finset.sort_empty _
    rcases hbt' with rfl | rfl | rfl
    · have h1 : sample_bar [] "tick" (.fixed v) rounding auto_ratio =
          Except.ok (aggBars (([] : List Tick).map toAux)
            (_assign_groups_threshold (([] : List Tick).map toAux) (.fixed v) AuxRow.ticks
              (cumsum ((([] : List Tick).map toAux).map AuxRow.ticks)) rounding auto_ratio)) := by
        unfold sample_bar _get_tick_bar
        rw [if_pos (by decide : ("tick" : String) ∈ POSSIBLE_BAR_TYPES)]
        rfl
      rw [h1, assign_fixed_eq]
      unfold aggBars
      rw [show grpAux v (cumsum ((([] : List Tick).map toAux).map AuxRow.ticks)) 0 0 0 =
        ([] : List (Option ℕ)) from rfl, hkeys]
      rfl
    · have h1 : sample_bar [] "volume" (.fixed v) rounding auto_ratio =
          Except.ok (aggBars (([] : List Tick).map toAux)
            (_assign_groups_threshold (([] : List Tick).map toAux) (.fixed v) AuxRow.volume
              (cumsum ((([] : List Tick).map toAux).map AuxRow.volume)) rounding auto_ratio)) := by
        unfold sample_bar _get_volume_bar
        rw [if_pos (by decide : ("volume" : String) ∈ POSSIBLE_BAR_TYPES)]
        rfl
      rw [h1, assign_fixed_eq]
      unfold aggBars
      rw [show grpAux v (cumsum ((([] : List Tick).map toAux).map AuxRow.volume)) 0 0 0 =
        ([] : List (Option ℕ)) from rfl, hkeys]
      rfl
    · have h1 : sample_bar [] "dollar" (.fixed v) rounding auto_ratio =
          Except.ok (aggBars (([] : List Tick).map toAux)
            (_assign_groups_threshold (([] : List Tick).map toAux) (.fixed v) AuxRow.dollar
              (cumsum ((([] : List Tick).map toAux).map AuxRow.dollar)) rounding auto_ratio)) := by
        unfold sample_bar _get_dollar_bar
        rw [if_pos (by decide : ("dollar" : String) ∈ POSSIBLE_BAR_TYPES)]
        rfl
      rw [h1, assign_fixed_eq]
      unfold aggBars
      rw [show grpAux v (cumsum ((([] : List Tick).map toAux).map AuxRow.dollar)) 0 0 0 =
        ([] : List (Option ℕ)) from rfl, hkeys]
      rfl
  · have h1 : sample_bar df "tick" (.fixed v) rounding auto_ratio =
        Except.ok (aggBars (df.map toAux)
          (_assign_groups_threshold (df.map toAux) (.fixed v) AuxRow.ticks
            (cumsum ((df.map toAux).map AuxRow.ticks)) rounding auto_ratio)) := by
      unfold sample_bar _get_tick_bar
      rw [if_pos (by decide : ("tick" : String) ∈ POSSIBLE_BAR_TYPES)]
      rfl
    refine ⟨_, h1, ?_⟩
    rw [assign_fixed_eq, map_toAux_ticks, cumsum_replicate_one, grpAux_eq_flattenBlocks,
      blockSizes_nonpos v hv df.length 0]
    unfold aggBars
    rw [groupKeys_flattenBlocks _ _ (fun s hs => by rw [List.eq_of_mem_replicate hs]; omega)]
    simp

/-- Witness for the amended C5: with threshold 0 a three-row tick table
yields three bars, and the empty volume table yields no bars and no
error. -/
theorem no_validation_degenerate_behavior_witness :
    sample_bar [] "volume" (.fixed 0) (-2) (1 / 50) = Except.ok [] ∧
    ∃ bars, sample_bar [⟨0, 10, 1⟩, ⟨1, 11, 2⟩, ⟨2, 12, 3⟩] "tick" (.fixed 0) (-2) (1 / 50) =
      Except.ok bars ∧ bars.length = 3 := by
  constructor
  · exact (no_validation_degenerate_behavior [] 0 (by norm_num) "volume" (by decide)
      (-2) (1 / 50)).1
  · exact (no_validation_degenerate_behavior [⟨0, 10, 1⟩, ⟨1, 11, 2⟩, ⟨2, 12, 3⟩] 0
      (by norm_num) "tick" (by decide) (-2) (1 / 50)).2

/-- Counterexample to claim C2 as stated: on the five-row example with tick
threshold 2 the group assignment is not [0, 0, 1, 1, 2]; the trailing fifth
row is left unassigned (NaN), so the claimed third partial bar does not
exist. -/
theorem example_bars_counterexample :
    _assign_groups_threshold
        [⟨0, 10, 1, 1, 10⟩, ⟨1, 11, 1, 1, 11⟩, ⟨2, 9, 1, 1, 9⟩, ⟨3, 12, 1, 1, 12⟩,
          ⟨4, 10, 1, 1, 10⟩] (.fixed 2) AuxRow.ticks
        (cumsum (([⟨0, 10, 1, 1, 10⟩, ⟨1, 11, 1, 1, 11⟩, ⟨2, 9, 1, 1, 9⟩, ⟨3, 12, 1, 1, 12⟩,
          ⟨4, 10, 1, 1, 10⟩] : List AuxRow).map AuxRow.ticks)) (-2) (1 / 50) ≠
      [some 0, some 0, some 1, some 1, some 2] := by
  rw [assign_fixed_eq]
  norm_num [grpAux, cumsum, List.replicate]
  simp

/-- Claim C2, amended: on the five-row example with prices 10, 11, 9, 12,
10, unit volumes and tick threshold 2, the group assignment is
[0, 0, 1, 1, NaN] and the sampler returns exactly the two full bars, bar0
with open 10, high 11, low 10, close 11, 2 ticks and volume 2, and bar1
with open 9, high 12, low 9, close 12, 2 ticks and volume 2; the trailing
fifth row produces no partial bar. -/
theorem example_bars_actual :
    _assign_groups_threshold
        [⟨0, 10, 1, 1, 10⟩, ⟨1, 11, 1, 1, 11⟩, ⟨2, 9, 1, 1, 9⟩, ⟨3, 12, 1, 1, 12⟩,
          ⟨4, 10, 1, 1, 10⟩] (.fixed 2) AuxRow.ticks
        (cumsum (([⟨0, 10, 1, 1, 10⟩, ⟨1, 11, 1, 1, 11⟩, ⟨2, 9, 1, 1, 9⟩, ⟨3, 12, 1, 1, 12⟩,
          ⟨4, 10, 1, 1, 10⟩] : List AuxRow).map AuxRow.ticks)) (-2) (1 / 50) =
      [some 0, some 0, some 1, some 1, none] ∧
    sample_bar [⟨0, 10, 1⟩, ⟨1, 11, 1⟩, ⟨2, 9, 1⟩, ⟨3, 12, 1⟩, ⟨4, 10, 1⟩] "tick"
        (.fixed 2) (-2) (1 / 50) =
      Except.ok [⟨1, 10, 11, 10, 11, 2, 2, 21⟩, ⟨3, 9, 12, 9, 12, 2, 2, 21⟩] := by
  constructor
  · rw [assign_fixed_eq]
    norm_num [grpAux, cumsum, List.replicate]
  · have h1 : sample_bar [⟨0, 10, 1⟩, ⟨1, 11, 1⟩, ⟨2, 9, 1⟩, ⟨3, 12, 1⟩, ⟨4, 10, 1⟩] "tick"
        (.fixed 2) (-2) (1 / 50) =
        Except.ok (aggBars (([⟨0, 10, 1⟩, ⟨1, 11, 1⟩, ⟨2, 9, 1⟩, ⟨3, 12, 1⟩,
          ⟨4, 10, 1⟩] : List Tick).map toAux)
          (_assign_groups_threshold (([⟨0, 10, 1⟩, ⟨1, 11, 1⟩, ⟨2, 9, 1⟩, ⟨3, 12, 1⟩,
            ⟨4, 10, 1⟩] : List Tick).map toAux) (.fixed 2) AuxRow.ticks
            (cumsum ((([⟨0, 10, 1⟩, ⟨1, 11, 1⟩, ⟨2, 9, 1⟩, ⟨3, 12, 1⟩,
              ⟨4, 10, 1⟩] : List Tick).map toAux).map AuxRow.ticks)) (-2) (1 / 50))) := by
      unfold sample_bar _get_tick_bar
      rw [if_pos (by decide : ("tick" : String) ∈ POSSIBLE_BAR_TYPES)]
      rfl
    rw [h1, assign_fixed_eq]
    have hgr : grpAux 2 (cumsum ((([⟨0, 10, 1⟩, ⟨1, 11, 1⟩, ⟨2, 9, 1⟩, ⟨3, 12, 1⟩,
        ⟨4, 10, 1⟩] : List Tick).map toAux).map AuxRow.ticks)) 0 0 0 =
        flattenBlocks 0 [2, 2] 1 := by
      rw [grpAux_eq_flattenBlocks]
      have hbs : blockSizes 2 (cumsum ((([⟨0, 10, 1⟩, ⟨1, 11, 1⟩, ⟨2, 9, 1⟩, ⟨3, 12, 1⟩,
          ⟨4, 10, 1⟩] : List Tick).map toAux).map AuxRow.ticks)) 0 0 = ([2, 2], 1) := by
        norm_num [blockSizes, cumsum, toAux]
      rw [hbs]
    rw [hgr]
    have hkeys : groupKeys (flattenBlocks 0 [2, 2] 1) = [0, 1] := by
      rw [groupKeys_flattenBlocks [2, 2] 1 (by norm_num)]
      rfl
    have hrows : (([⟨0, 10, 1⟩, ⟨1, 11, 1⟩, ⟨2, 9, 1⟩, ⟨3, 12, 1⟩,
        ⟨4, 10, 1⟩] : List Tick).map toAux) =
        ([⟨0, 10, 1, 1, 10⟩, ⟨1, 11, 1, 1, 11⟩, ⟨2, 9, 1, 1, 9⟩, ⟨3, 12, 1, 1, 12⟩,
          ⟨4, 10, 1, 1, 10⟩] : List AuxRow) := by
      norm_num [toAux]
    rw [hrows]
    unfold aggBars
    rw [hkeys]
    have hsel0 : selectRows ([⟨0, 10, 1, 1, 10⟩, ⟨1, 11, 1, 1, 11⟩, ⟨2, 9, 1, 1, 9⟩,
        ⟨3, 12, 1, 1, 12⟩, ⟨4, 10, 1, 1, 10⟩] : List AuxRow) (flattenBlocks 0 [2, 2] 1) 0 =
        [⟨0, 10, 1, 1, 10⟩, ⟨1, 11, 1, 1, 11⟩] := by
      norm_num [selectRows, flattenBlocks, List.replicate, List.filter_cons,
        List.filter_nil]
      simp
    have hsel1 : selectRows ([⟨0, 10, 1, 1, 10⟩, ⟨1, 11, 1, 1, 11⟩, ⟨2, 9, 1, 1, 9⟩,
        ⟨3, 12, 1, 1, 12⟩, ⟨4, 10, 1, 1, 10⟩] : List AuxRow) (flattenBlocks 0 [2, 2] 1) 1 =
        [⟨2, 9, 1, 1, 9⟩, ⟨3, 12, 1, 1, 12⟩] := by
      norm_num [selectRows, flattenBlocks, List.replicate, List.filter_cons,
        List.filter_nil]
      simp
    simp only [List.map_cons, List.map_nil, hsel0, hsel1]
    norm_num [barOf, colMax, colMin]

/-! Auto threshold: the business-day resample. -/

/-- dtMin bounds every entry from below. -/
theorem dtMin_le : ∀ (l : List ℤ) (x : ℤ), x ∈ l → dtMin l ≤ x := by
  intro l
  induction l with
  | nil => intro x hx; cases hx
  | cons a l ih =>
    intro x hx
    cases l with
    | nil =>
      rcases List.mem_singleton.mp hx with rfl
      simp [dtMin]
    | cons b l2 =>
      simp only [dtMin]
      rcases List.mem_cons.mp hx with rfl | hx
      · exact min_le_left _ _
      · exact le_trans (min_le_right _ _) (ih x hx)

/-- dtMax bounds every entry from above. -/
theorem le_dtMax : ∀ (l : List ℤ) (x : ℤ), x ∈ l → x ≤ dtMax l := by
  intro l
  induction l with
  | nil => intro x hx; cases hx
  | cons a l ih =>
    intro x hx
    cases l with
    | nil =>
      rcases List.mem_singleton.mp hx with rfl
      simp [dtMax]
    | cons b l2 =>
      simp only [dtMax]
      rcases List.mem_cons.mp hx with rfl | hx
      · exact le_max_left _ _
      · exact le_trans (ih x hx) (le_max_right _ _)

/-- A sum of an indicator over day bins none of which match is zero. -/
theorem sum_ite_eq_zero (d lo : ℤ) (c : ℚ) :
    ∀ (n : ℕ), (∀ k : ℕ, k < n → d ≠ lo + k) →
    ((List.range n).map (fun (k : ℕ) => if d = lo + (k : ℤ) then c else 0)).sum = 0 := by
  intro n
  induction n with
  | zero => intro h; simp
  | succ n ih =>
    intro h
    rw [List.range_succ, List.map_append, List.sum_append]
    simp only [List.map_cons, List.map_nil, List.sum_cons, List.sum_nil]
    rw [if_neg (h n (by omega)), ih (fun k hk => h k (by omega))]
    simp

/-- A sum of an indicator over day bins exactly one of which matches picks
out its value. -/
theorem sum_ite_day (lo d : ℤ) (c : ℚ) (n : ℕ) (h1 : lo ≤ d) (h2 : d < lo + n) :
    ((List.range n).map (fun (k : ℕ) => if d = lo + (k : ℤ) then c else 0)).sum = c := by
  induction n with
  | zero =>
    exfalso
    simp only [Nat.cast_zero, add_zero] at h2
    omega
  | succ n ih =>
    rw [List.range_succ, List.map_append, List.sum_append]
    simp only [List.map_cons, List.map_nil, List.sum_cons, List.sum_nil]
    by_cases hd : d = lo + n
    · rw [if_pos hd, sum_ite_eq_zero d lo c n (fun k hk => by omega)]
      simp
    · have hlt : d < lo + n := by
        push_cast at h2
        omega
      rw [if_neg hd, ih hlt]
      simp

/-- Summing the per-bin sums over all day bins recovers the total sum of
the measure column. -/
theorem binsum (tgt : AuxRow → ℚ) (lo : ℤ) :
    ∀ (rows : List AuxRow) (n : ℕ),
    (∀ r ∈ rows, lo ≤ r.date_time ∧ r.date_time < lo + n) →
    ((List.range n).map (fun (k : ℕ) =>
      ((rows.filter (fun r => decide (r.date_time = lo + (k : ℤ)))).map tgt).sum)).sum =
    (rows.map tgt).sum := by
  intro rows
  induction rows with
  | nil =>
    intro n h
    simp
  | cons r rows ih =>
    intro n h
    have hr := h r (List.mem_cons_self r rows)
    have hrows := fun x hx => h x (List.mem_cons_of_mem r hx)
    have hmap : ((List.range n).map (fun (k : ℕ) =>
        (((r :: rows).filter (fun x => decide (x.date_time = lo + (k : ℤ)))).map tgt).sum)) =
        ((List.range n).map (fun (k : ℕ) =>
          (if r.date_time = lo + (k : ℤ) then tgt r else 0) +
          ((rows.filter (fun x => decide (x.date_time = lo + (k : ℤ)))).map tgt).sum)) := by
      apply List.map_eq_map_iff.mpr
      intro k _
      rw [List.filter_cons]
      by_cases hc : r.date_time = lo + (k : ℤ)
      · simp [hc]
      · simp [hc]
    rw [hmap, List.sum_map_add, sum_ite_day lo r.date_time (tgt r) n hr.1 hr.2, ih n hrows]
    simp

/-- The business-day bins sum to the total of the measure column: bins are
taken over the whole span of the data, days with no rows contributing
zero. -/
theorem resample_total (rows : List AuxRow) (tgt : AuxRow → ℚ) :
    (resample_B_sum rows tgt).sum = (rows.map tgt).sum := by
  unfold resample_B_sum
  apply binsum
  intro r hr
  have h1 := le_dtMax (rows.map AuxRow.date_time) r.date_time
    (List.mem_map_of_mem AuxRow.date_time hr)
  have h2 := dtMin_le (rows.map AuxRow.date_time) r.date_time
    (List.mem_map_of_mem AuxRow.date_time hr)
  unfold spanDays
  constructor
  · exact h2
  · push_cast
    omega

/-- The mean per-business-day total equals the total of the measure column
divided by the number of day bins in the span. -/
theorem mean_daily_eq (rows : List AuxRow) (tgt : AuxRow → ℚ) :
    mean_daily rows tgt = (rows.map tgt).sum / (spanDays rows : ℚ) := by
  unfold mean_daily
  rw [resample_total rows tgt]
  have hlen : (resample_B_sum rows tgt).length = spanDays rows := by
    unfold resample_B_sum
    simp
  rw [hlen]

/-- Counterexample to claim C6 as stated: the daily sums are not averaged
over the days present in the input but over every business-day bin of the
span, empty bins counting as zero.  With rows on days 0 and 2 only (volume
3 each), rounding 0 and ratio 1, the code resolves 2 (mean over the three
bins 3, 0, 3) while averaging over the days present would give 3. -/
theorem auto_threshold_counterexample :
    _get_auto_threshold [⟨0, 1, 3, 1, 3⟩, ⟨2, 1, 3, 1, 3⟩] AuxRow.volume 0 1 ≠
      np_round (((3 : ℚ) + 3) / 2 * 1) 0 := by
  have hmean : mean_daily [⟨0, 1, 3, 1, 3⟩, ⟨2, 1, 3, 1, 3⟩] AuxRow.volume = 2 := by
    have hspan : spanDays [⟨0, 1, 3, 1, 3⟩, ⟨2, 1, 3, 1, 3⟩] = 3 := by rfl
    norm_num [mean_daily, resample_B_sum, hspan, show List.range 3 = [0, 1, 2] from rfl,
      dtMin, dtMax, List.filter_cons, List.filter_nil]
  norm_num [_get_auto_threshold, hmean, np_round, round_half_even]

/-- Claim C6, amended: the auto threshold is the mean of the per business
day sums taken over every day bin between the first and the last day of
the input (days without rows counting as zero), multiplied by auto_ratio
and rounded with np.round to the magnitude given by rounding; it is
resolved once, before the grouping loop, and the auto pass equals the
fixed pass at the resolved value. -/
theorem auto_threshold_resolution (df : List AuxRow) (hdf : df ≠ [])
    (tgt : AuxRow → ℚ) (cum : List ℚ) (rounding : ℤ) (auto_ratio : ℚ) :
    _assign_groups_threshold df .auto tgt cum rounding auto_ratio =
      _assign_groups_threshold df
        (.fixed (_get_auto_threshold df tgt rounding auto_ratio)) tgt cum rounding
        auto_ratio ∧
    _get_auto_threshold df tgt rounding auto_ratio =
      np_round ((df.map tgt).sum / (spanDays df : ℚ) * auto_ratio) rounding := by
  constructor
  · rfl
  · unfold _get_auto_threshold
    rw [mean_daily_eq df tgt]

/-- Witness for the amended C6: on the two-day example the resolved
threshold is the rounded span mean, and the auto pass equals the fixed
pass at it. -/
theorem auto_threshold_resolution_witness :
    _assign_groups_threshold [⟨0, 1, 3, 1, 3⟩, ⟨2, 1, 3, 1, 3⟩] .auto AuxRow.volume
        [(3 : ℚ), 6] 0 1 =
      _assign_groups_threshold [⟨0, 1, 3, 1, 3⟩, ⟨2, 1, 3, 1, 3⟩]
        (.fixed (_get_auto_threshold [⟨0, 1, 3, 1, 3⟩, ⟨2, 1, 3, 1, 3⟩] AuxRow.volume 0 1))
        AuxRow.volume [(3 : ℚ), 6] 0 1 ∧
    _get_auto_threshold [⟨0, 1, 3, 1, 3⟩, ⟨2, 1, 3, 1, 3⟩] AuxRow.volume 0 1 =
      np_round ((([⟨0, 1, 3, 1, 3⟩, ⟨2, 1, 3, 1, 3⟩] : List AuxRow).map AuxRow.volume).sum /
        (spanDays [⟨0, 1, 3, 1, 3⟩, ⟨2, 1, 3, 1, 3⟩] : ℚ) * 1) 0 :=
  auto_threshold_resolution [⟨0, 1, 3, 1, 3⟩, ⟨2, 1, 3, 1, 3⟩] (by simp) AuxRow.volume
    [(3 : ℚ), 6] 0 1

/-- Counterexample to claim C7 as stated: increasing auto_ratio does not
strictly increase the resolved automatic threshold, because the rounding
step flattens small changes; on a one-row input with rounding -2 the
resolved threshold is 0 for both ratio 1 and ratio 2. -/
theorem auto_ratio_strict_counterexample :
    ¬ (_get_auto_threshold [⟨0, 10, 1, 1, 10⟩] AuxRow.ticks (-2) 1 <
       _get_auto_threshold [⟨0, 10, 1, 1, 10⟩] AuxRow.ticks (-2) 2) := by
  have hmean : mean_daily [⟨0, 10, 1, 1, 10⟩] AuxRow.ticks = 1 := by
    have hspan : spanDays [⟨0, 10, 1, 1, 10⟩] = 1 := by rfl
    norm_num [mean_daily, resample_B_sum, hspan, show List.range 1 = [0] from rfl,
      dtMin, dtMax, List.filter_cons, List.filter_nil]
  norm_num [_get_auto_threshold, hmean, np_round, round_half_even]

/-- Claim C7, amended: for the same input, increasing auto_ratio strictly
increases the pre-rounding threshold mean_daily times ratio provided the
mean daily total is positive, and doubling auto_ratio exactly doubles the
pre-rounding threshold; the resolved threshold applies np.round on top of
this product, which need not preserve strictness. -/
theorem auto_ratio_prescaling (df : List AuxRow) (tgt : AuxRow → ℚ) (a a1 a2 : ℚ) :
    (0 < mean_daily df tgt → a1 < a2 →
      mean_daily df tgt * a1 < mean_daily df tgt * a2) ∧
    mean_daily df tgt * (2 * a) = 2 * (mean_daily df tgt * a) ∧
    (∀ rounding : ℤ, _get_auto_threshold df tgt rounding a =
      np_round (mean_daily df tgt * a) rounding) := by
  refine ⟨fun hm hlt => mul_lt_mul_of_pos_left hlt hm, by ring, fun rounding => rfl⟩

/-- Witness for the amended C7 on a one-row input with mean daily total 1:
ratio 1 versus ratio 2 strictly increases the pre-rounding product. -/
theorem auto_ratio_prescaling_witness :
    mean_daily [⟨0, 10, 1, 1, 10⟩] AuxRow.ticks * 1 <
      mean_daily [⟨0, 10, 1, 1, 10⟩] AuxRow.ticks * 2 :=
  (auto_ratio_prescaling [⟨0, 10, 1, 1, 10⟩] AuxRow.ticks 1 1 2).1
    (by
      have hmean : mean_daily [⟨0, 10, 1, 1, 10⟩] AuxRow.ticks = 1 := by
        have hspan : spanDays [⟨0, 10, 1, 1, 10⟩] = 1 := by rfl
        norm_num [mean_daily, resample_B_sum, hspan, show List.range 1 = [0] from rfl,
          dtMin, dtMax, List.filter_cons, List.filter_nil]
      rw [hmean]
      norm_num) (by norm_num)

/-- Claim C9: the sampling call returns the table object the caller passed
in unchanged (every mutation happens on the deep copies aux and tmp), and
its only emission is the single print of the resolved threshold in auto
mode; with a fixed threshold nothing is printed. -/
theorem sample_frame_and_emission (df : DFrame) (bt : String) (threshold : Threshold)
    (rounding : ℤ) (auto_ratio : ℚ) :
    (sample_bar_effects df bt threshold rounding auto_ratio).1 = df ∧
    (∀ v, threshold = .fixed v →
      (sample_bar_effects df bt threshold rounding auto_ratio).2 = []) ∧
    (threshold = .auto → bt ∈ POSSIBLE_BAR_TYPES →
      ∃ v, (sample_bar_effects df bt threshold rounding auto_ratio).2 = [v]) := by
  have hbt3 : bt ∈ POSSIBLE_BAR_TYPES → bt = "tick" ∨ bt = "volume" ∨ bt = "dollar" := by
    intro h
    simpa [POSSIBLE_BAR_TYPES] using h
  refine ⟨?_, ?_, ?_⟩
  · unfold sample_bar_effects
    by_cases hbt : bt ∈ POSSIBLE_BAR_TYPES
    · rw [if_pos hbt]
    · rw [if_neg hbt]
  · rintro v rfl
    by_cases hbt : bt ∈ POSSIBLE_BAR_TYPES
    · rcases hbt3 hbt with rfl | rfl | rfl
      · rfl
      · rfl
      · rfl
    · unfold sample_bar_effects
      rw [if_neg hbt]
  · rintro rfl hmem
    rcases hbt3 hmem with rfl | rfl | rfl
    · exact ⟨_, rfl⟩
    · exact ⟨_, rfl⟩
    · exact ⟨_, rfl⟩

/-- Witness for C9: with a fixed threshold nothing is printed and the
caller table is unchanged; in auto mode exactly one value is printed. -/
theorem sample_frame_and_emission_witness :
    (sample_bar_effects ⟨[⟨0, 10, 1⟩], []⟩ "tick" (.fixed 5) (-2) (1 / 50)).1 =
      (⟨[⟨0, 10, 1⟩], []⟩ : DFrame) ∧
    (sample_bar_effects ⟨[⟨0, 10, 1⟩], []⟩ "tick" (.fixed 5) (-2) (1 / 50)).2 = [] ∧
    ∃ v, (sample_bar_effects ⟨[⟨0, 10, 1⟩], []⟩ "volume" .auto (-2) (1 / 50)).2 = [v] :=
  ⟨(sample_frame_and_emission ⟨[⟨0, 10, 1⟩], []⟩ "tick" (.fixed 5) (-2) (1 / 50)).1,
   (sample_frame_and_emission ⟨[⟨0, 10, 1⟩], []⟩ "tick" (.fixed 5) (-2) (1 / 50)).2.1 5 rfl,
   (sample_frame_and_emission ⟨[⟨0, 10, 1⟩], []⟩ "volume" .auto (-2) (1 / 50)).2.2 rfl
     (by decide)⟩

/-- Witness for C10 at the five-row example with threshold 2: the sampler
returns two bars and each carries exactly 2 ticks. -/
theorem tick_bars_ticks_eq_threshold_witness :
    0 < 2 ∧ ∃ bars,
      sample_bar [⟨0, 10, 1⟩, ⟨1, 11, 1⟩, ⟨2, 9, 1⟩, ⟨3, 12, 1⟩, ⟨4, 10, 1⟩] "tick"
        (.fixed ((2 : ℕ) : ℚ)) (-2) (1 / 50) = Except.ok bars ∧
      bars.length =
        ([⟨0, 10, 1⟩, ⟨1, 11, 1⟩, ⟨2, 9, 1⟩, ⟨3, 12, 1⟩, ⟨4, 10, 1⟩] : List Tick).length / 2 ∧
      ∀ b ∈ bars, b.ticks = ((2 : ℕ) : ℚ) :=
  ⟨by decide, tick_bars_ticks_eq_threshold
    [⟨0, 10, 1⟩, ⟨1, 11, 1⟩, ⟨2, 9, 1⟩, ⟨3, 12, 1⟩, ⟨4, 10, 1⟩] 2 (by decide) (-2) (1 / 50)⟩

end FinanceML
